import Mathlib

/-!
Verification of a small in-memory directed-graph engine
(`SortableDigraph` / `TraversableDigraph` / `DAG`).

Python dictionaries (which preserve insertion order and have unique keys)
are modelled as association lists; Python sets as duplicate-free lists;
node identifiers as natural numbers; payload values and edge weights as
`Option Int` (`none` models Python `None`).  Recursive Python functions
are modelled with an explicit fuel argument, together with lemmas showing
the chosen fuel is always sufficient.
-/

set_option autoImplicit false
set_option linter.unusedSectionVars false

universe u v

/-- First-match lookup in an association list, like `dict.get`. -/
def alookup {α : Type u} {β : Type v} [DecidableEq α] : List (α × β) → α → Option β
  | [], _ => none
  | p :: t, k => if p.1 = k then some p.2 else alookup t k

/-- The keys of an association list, in insertion order. -/
def akeys {α : Type u} {β : Type v} (l : List (α × β)) : List α := l.map Prod.fst

/-- Update the value at the first entry with key `k`, like mutating `d[k]`. -/
def updFirst {α : Type u} {β : Type v} [DecidableEq α] :
    List (α × β) → α → (β → β) → List (α × β)
  | [], _, _ => []
  | p :: t, k, f => if p.1 = k then (p.1, f p.2) :: t else p :: updFirst t k f

/-- Python dict assignment `d[k] = v`: overwrite in place if the key is
present, otherwise append at the end. -/
def dictSet {α : Type u} {β : Type v} [DecidableEq α]
    (l : List (α × β)) (k : α) (v : β) : List (α × β) :=
  match alookup l k with
  | some _ => updFirst l k (fun _ => v)
  | none => l ++ [(k, v)]

/-- Python `del d[k]`: remove the (first) entry with key `k`. -/
def delKey {α : Type u} {β : Type v} [DecidableEq α] : List (α × β) → α → List (α × β)
  | [], _ => []
  | p :: t, k => if p.1 = k then t else p :: delKey t k

/-- Python `set.add`: insert an element unless already present. -/
def setAdd {α : Type u} [DecidableEq α] (x : α) (s : List α) : List α :=
  if x ∈ s then s else x :: s

section ALemmas

variable {α : Type u} {β : Type v} [DecidableEq α]

@[simp] theorem akeys_nil : akeys ([] : List (α × β)) = [] := rfl

@[simp] theorem akeys_cons (p : α × β) (t : List (α × β)) :
    akeys (p :: t) = p.1 :: akeys t := rfl

theorem alookup_append (l₁ l₂ : List (α × β)) (k : α) :
    alookup (l₁ ++ l₂) k = ((alookup l₁ k).rec (alookup l₂ k) (fun b => some b)) := by
  induction l₁ with
  | nil => simp [alookup]
  | cons p t ih =>
    by_cases h : p.1 = k <;> simp [alookup, h, ih]

theorem alookup_eq_none_iff (l : List (α × β)) (k : α) :
    alookup l k = none ↔ k ∉ akeys l := by
  induction l with
  | nil => simp [alookup]
  | cons p t ih =>
    rw [akeys_cons, List.mem_cons]
    by_cases h : p.1 = k
    · subst h; simp [alookup]
    · rw [alookup, if_neg h, ih]
      constructor
      · intro hk hor
        rcases hor with hor | hor
        · exact h hor.symm
        · exact hk hor
      · intro hk hmem
        exact hk (Or.inr hmem)

theorem alookup_isSome_iff (l : List (α × β)) (k : α) :
    (alookup l k).isSome = true ↔ k ∈ akeys l := by
  rw [← Decidable.not_iff_not, ← alookup_eq_none_iff l k]
  cases alookup l k <;> simp

theorem alookup_updFirst_self (l : List (α × β)) (k : α) (f : β → β) :
    alookup (updFirst l k f) k = (alookup l k).map f := by
  induction l with
  | nil => simp [alookup, updFirst]
  | cons p t ih =>
    by_cases h : p.1 = k <;> simp [alookup, updFirst, h, ih]

theorem alookup_updFirst_ne (l : List (α × β)) (k k' : α) (f : β → β) (h : k' ≠ k) :
    alookup (updFirst l k f) k' = alookup l k' := by
  induction l with
  | nil => simp [updFirst]
  | cons p t ih =>
    by_cases hp : p.1 = k
    · subst hp
      have hne : ¬ p.1 = k' := fun hh => h hh.symm
      rw [updFirst, if_pos rfl]
      show (if p.1 = k' then some (f p.2) else alookup t k')
          = if p.1 = k' then some p.2 else alookup t k'
      rw [if_neg hne, if_neg hne]
    · rw [updFirst, if_neg hp, alookup, alookup]
      by_cases hq : p.1 = k' <;> simp [hq, ih]

theorem updFirst_of_not_mem (l : List (α × β)) (k : α) (f : β → β) (h : k ∉ akeys l) :
    updFirst l k f = l := by
  induction l with
  | nil => simp [updFirst]
  | cons p t ih =>
    rw [akeys_cons, List.mem_cons] at h
    push_neg at h
    rw [updFirst, if_neg (fun hh => h.1 hh.symm), ih h.2]

theorem updFirst_updFirst (l : List (α × β)) (k : α) (f g : β → β) :
    updFirst (updFirst l k f) k g = updFirst l k (fun b => g (f b)) := by
  induction l with
  | nil => simp [updFirst]
  | cons p t ih =>
    by_cases h : p.1 = k <;> simp [updFirst, h, ih]

theorem updFirst_congr (l : List (α × β)) (k : α) (f : β → β)
    (h : ∀ b, alookup l k = some b → f b = b) : updFirst l k f = l := by
  induction l with
  | nil => simp [updFirst]
  | cons p t ih =>
    by_cases hp : p.1 = k
    · have hv := h p.2 (by simp [alookup, hp])
      rw [updFirst, if_pos hp, hv]
    · rw [updFirst, if_neg hp]
      rw [ih (fun b hb => h b (by rw [alookup, if_neg hp]; exact hb))]

theorem akeys_updFirst (l : List (α × β)) (k : α) (f : β → β) :
    akeys (updFirst l k f) = akeys l := by
  induction l with
  | nil => simp [updFirst]
  | cons p t ih =>
    by_cases h : p.1 = k
    · rw [updFirst, if_pos h, akeys_cons, akeys_cons]
    · rw [updFirst, if_neg h, akeys_cons, akeys_cons, ih]

theorem akeys_append (l₁ l₂ : List (α × β)) :
    akeys (l₁ ++ l₂) = akeys l₁ ++ akeys l₂ := by
  simp [akeys]

theorem delKey_append_singleton (l : List (α × β)) (k : α) (v : β) (h : k ∉ akeys l) :
    delKey (l ++ [(k, v)]) k = l := by
  induction l with
  | nil => simp [delKey]
  | cons p t ih =>
    rw [akeys_cons, List.mem_cons] at h
    push_neg at h
    rw [List.cons_append, delKey, if_neg (fun hh => h.1 hh.symm), ih h.2]

theorem mem_akeys_of_alookup (l : List (α × β)) (k : α) (b : β)
    (h : alookup l k = some b) : k ∈ akeys l := by
  rw [← alookup_isSome_iff, h]
  rfl

end ALemmas

/-- The state of a graph object: the three Python instance dictionaries
`self.adj`, `self.node_data`, `self.edge_weights`. -/
structure Graph where
  adj : List (Nat × List Nat)
  node_data : List (Nat × Option Int)
  edge_weights : List ((Nat × Nat) × Option Int)
  deriving DecidableEq

/-- A freshly constructed graph object. -/
def Graph.empty : Graph := ⟨[], [], []⟩

namespace SortableDigraph

/-- `SortableDigraph.add_node`: insert a node if absent; otherwise a no-op. -/
def add_node (g : Graph) (node : Nat) (data : Option Int) : Graph :=
  match alookup g.adj node with
  | some _ => g
  | none =>
    { g with adj := g.adj ++ [(node, [])],
             node_data := g.node_data ++ [(node, data)] }

/-- `SortableDigraph.successors`: the stored successor list (a copy), empty
for an unknown node. -/
def successors (g : Graph) (node : Nat) : List Nat :=
  (alookup g.adj node).getD []

/-- `SortableDigraph.add_edge`: ensure both endpoints exist, append `v` to
`u`'s successor list, and record the weight.  The Python default weight is
`None`. -/
def add_edge (g : Graph) (u v : Nat) (edge_weight : Option Int) : Graph :=
  let g1 := add_node g u none
  let g2 := add_node g1 v none
  { g2 with adj := updFirst g2.adj u (fun l => l ++ [v]),
            edge_weights := dictSet g2.edge_weights (u, v) edge_weight }

/-- `SortableDigraph.get_node_value`: `self.node_data.get(node)` — the stored
value, or `None` when the node is unknown (Python cannot distinguish a stored
`None` from an absent node here). -/
def get_node_value (g : Graph) (node : Nat) : Option Int :=
  match alookup g.node_data node with
  | some d => d
  | none => none

/-- `SortableDigraph.get_edge_weight`: `self.edge_weights.get((u, v))`. -/
def get_edge_weight (g : Graph) (u v : Nat) : Option Int :=
  match alookup g.edge_weights (u, v) with
  | some w => w
  | none => none

/-- `SortableDigraph.predecessors`: all nodes with an edge into `node`,
in key insertion order. -/
def predecessors (g : Graph) (node : Nat) : List Nat :=
  (g.adj.filter (fun p => p.2.contains node)).map Prod.fst

/-- `SortableDigraph.get_nodes`: all node identifiers in insertion order. -/
def get_nodes (g : Graph) : List Nat := akeys g.adj

end SortableDigraph

/-- Every node mentioned anywhere in the adjacency structure: the keys
followed by all successor-list elements. -/
def nodesOf (g : Graph) : List Nat :=
  akeys g.adj ++ (g.adj.map Prod.snd).flatten

namespace TraversableDigraph

/-- The body of `bfs`'s inner `for neighbor in self.successors(node)` loop:
threads the visited set, the result list and the queue. -/
def bfsStep (visited result queue : List Nat) : List Nat → List Nat × List Nat × List Nat
  | [] => (visited, result, queue)
  | nb :: rest =>
    if nb ∈ visited then bfsStep visited result queue rest
    else bfsStep (setAdd nb visited) (result ++ [nb]) (queue ++ [nb]) rest

/-- The `while queue:` loop of `bfs`, with explicit fuel.  `none` means the
fuel ran out (shown elsewhere never to happen for the fuel used by `bfs`). -/
def bfsAux (g : Graph) : Nat → List Nat → List Nat → List Nat → Option (List Nat)
  | 0, _, _, _ => none
  | fuel + 1, queue, visited, result =>
    match queue with
    | [] => some result
    | node :: qrest =>
      let s := bfsStep visited result qrest (SortableDigraph.successors g node)
      bfsAux g fuel s.2.2 s.1 s.2.1

/-- Fuel sufficient for any run of the traversal and cycle-detection loops. -/
def travFuel (g : Graph) : Nat := (nodesOf g).length + 2

/-- `TraversableDigraph.bfs`: breadth-first search from `start`, excluding
the start node unless it is rediscovered as a successor. -/
def bfs (g : Graph) (start : Nat) : List Nat :=
  (bfsAux g (travFuel g) [start] [] []).getD []

/-- The body of `dfs_visit`'s `for neighbor in self.successors(node)` loop;
`dfsN` is the recursive call at one lower fuel. -/
def dfsStep (dfsN : Nat → List Nat → List Nat → Option (List Nat × List Nat)) :
    List Nat → List Nat → List Nat → Option (List Nat × List Nat)
  | [], visited, result => some (visited, result)
  | nb :: rest, visited, result =>
    if nb ∈ visited then dfsStep dfsN rest visited result
    else
      match dfsN nb (setAdd nb visited) (result ++ [nb]) with
      | none => none
      | some s => dfsStep dfsN rest s.1 s.2

/-- `dfs_visit(node)`: recursively explore the successors of `node`,
threading the visited set and the result list, with explicit fuel. -/
def dfsVisit (g : Graph) : Nat → Nat → List Nat → List Nat → Option (List Nat × List Nat)
  | 0, _, _, _ => none
  | fuel + 1, node, visited, result =>
    dfsStep (dfsVisit g fuel) (SortableDigraph.successors g node) visited result

/-- `TraversableDigraph.dfs`: depth-first search from `start`, excluding the
start node unless it is rediscovered as a successor. -/
def dfs (g : Graph) (start : Nat) : List Nat :=
  match dfsVisit g (travFuel g) start [] [] with
  | some s => s.2
  | none => []

end TraversableDigraph

namespace DAG

/-- The body of `dfs_cycle`'s `for neighbor in self.successors(node)` loop;
`dcN` is the recursive call at one lower fuel.  Returns the cycle flag, the
visited set and the recursion stack (both are shared mutable sets in the
Python code). -/
def dcStep (dcN : Nat → List Nat → List Nat → Option (Bool × List Nat × List Nat)) :
    List Nat → List Nat → List Nat → Option (Bool × List Nat × List Nat)
  | [], visited, rstack => some (false, visited, rstack)
  | nb :: rest, visited, rstack =>
    if nb ∈ visited then
      if nb ∈ rstack then some (true, visited, rstack)
      else dcStep dcN rest visited rstack
    else
      match dcN nb visited rstack with
      | none => none
      | some res =>
        if res.1 then some res
        else if nb ∈ res.2.2 then some (true, res.2.1, res.2.2)
        else dcStep dcN rest res.2.1 res.2.2

/-- `dfs_cycle(node)`: add `node` to the visited set and the recursion stack,
explore its successors, and remove it from the recursion stack when no cycle
was found. -/
def dcVisit (g : Graph) : Nat → Nat → List Nat → List Nat → Option (Bool × List Nat × List Nat)
  | 0, _, _, _ => none
  | fuel + 1, node, visited, rstack =>
    match dcStep (dcVisit g fuel)
        (SortableDigraph.successors g node) (setAdd node visited) (setAdd node rstack) with
    | none => none
    | some res =>
      if res.1 then some res
      else some (false, res.2.1, res.2.2.erase node)

/-- The `for node in self.adj:` loop of `_detect_cycle`, sharing the visited
set and recursion stack across iterations. -/
def dcLoop (g : Graph) (fuel : Nat) : List Nat → List Nat → List Nat → Option Bool
  | [], _, _ => some false
  | n :: rest, visited, rstack =>
    if n ∈ visited then dcLoop g fuel rest visited rstack
    else
      match dcVisit g fuel n visited rstack with
      | none => none
      | some res => if res.1 then some true else dcLoop g fuel rest res.2.1 res.2.2

/-- `DAG._detect_cycle`: DFS-coloring cycle detection over the whole graph. -/
def detect_cycle (g : Graph) : Bool :=
  (dcLoop g (TraversableDigraph.travFuel g) (akeys g.adj) [] []).getD false

/-- `DAG.add_edge`: speculatively insert through the base class, then detect
cycles; on detection, delete the just-inserted weight entry, remove the
just-appended adjacency entry, and raise (`true` in the second component
models the raised `ValueError`).  The Python default weight is `1`. -/
def add_edge (g : Graph) (src dest : Nat) (edge_weight : Option Int) : Graph × Bool :=
  let g' := SortableDigraph.add_edge g src dest edge_weight
  if detect_cycle g' then
    ({ g' with edge_weights := delKey g'.edge_weights (src, dest),
               adj := updFirst g'.adj src (fun l => l.erase dest) }, true)
  else (g', false)

/-- The initial in-degree table of `DAG.top_sort`: for every node, the number
of stored edges into it. -/
def initInDegree (g : Graph) : Nat → Int :=
  fun v => ((g.adj.map Prod.snd).flatten.count v : Int)

/-- The body of `top_sort`'s `for v in self.adj.get(u, [])` loop: decrement
each successor's in-degree and enqueue it when the in-degree reaches zero. -/
def decStep : List Nat → (Nat → Int) → List Nat → (Nat → Int) × List Nat
  | [], indeg, queue => (indeg, queue)
  | v :: rest, indeg, queue =>
    let d := indeg v - 1
    decStep rest (fun x => if x = v then d else indeg x)
      (if d = 0 then queue ++ [v] else queue)

/-- The `while queue:` loop of `DAG.top_sort` (Kahn's algorithm), with
explicit fuel. -/
def kahnLoop (g : Graph) : Nat → List Nat → (Nat → Int) → List Nat → Option (List Nat)
  | 0, _, _, _ => none
  | fuel + 1, queue, indeg, topo =>
    match queue with
    | [] => some topo
    | u :: qrest =>
      let s := decStep (SortableDigraph.successors g u) indeg qrest
      kahnLoop g fuel s.2 s.1 (topo ++ [u])

/-- `DAG.top_sort`: Kahn's algorithm; raises (models `Except.error`) when the
produced order does not cover every node. -/
def top_sort (g : Graph) : Except String (List Nat) :=
  let indeg := initInDegree g
  match kahnLoop g (g.adj.length + 1) ((akeys g.adj).filter (fun u => indeg u == 0)) indeg [] with
  | none => Except.error "fuel exhausted"
  | some topo =>
    if topo.length = g.adj.length then Except.ok topo
    else Except.error "Graph has at least one cycle; cannot topologically sort."

end DAG

/-- The directed one-step edge relation of a graph state: `Adj g u v` holds
when `v` occurs in `u`'s successor list. -/
def Adj (g : Graph) (u v : Nat) : Prop := v ∈ SortableDigraph.successors g u

instance (g : Graph) (u v : Nat) : Decidable (Adj g u v) := by
  unfold Adj; infer_instance

/-- Reachability by one or more edges. -/
def Reaches1 (g : Graph) : Nat → Nat → Prop := Relation.TransGen (Adj g)

/-- Reachability by zero or more edges. -/
def Reaches (g : Graph) : Nat → Nat → Prop := Relation.ReflTransGen (Adj g)

/-- A graph state is acyclic when no node is reachable from itself by a
nonempty directed path. -/
def Acyclic (g : Graph) : Prop := ∀ n : Nat, ¬ Reaches1 g n n

/-- `u` appears strictly before `v` in the list `l`. -/
def Before (l : List Nat) (u v : Nat) : Prop :=
  ∃ p q, l = p ++ v :: q ∧ u ∈ p

/-- Well-formedness of a graph state, as maintained by the Python class
through its methods: dictionary keys are unique, `node_data` is kept in sync
with `adj`, every stored successor is itself a node, and every weight entry
corresponds to a stored edge. -/
def WF (g : Graph) : Prop :=
  (akeys g.adj).Nodup ∧
  akeys g.node_data = akeys g.adj ∧
  (akeys g.edge_weights).Nodup ∧
  (∀ p ∈ g.adj, ∀ v ∈ p.2, v ∈ akeys g.adj) ∧
  (∀ q ∈ g.edge_weights, q.1.2 ∈ SortableDigraph.successors g q.1.1)

instance (g : Graph) : Decidable (WF g) := by
  unfold WF; infer_instance

section SortableLemmas

open SortableDigraph

theorem successors_add_node (g : Graph) (n : Nat) (d : Option Int) (u : Nat) :
    successors (add_node g n d) u = successors g u := by
  unfold add_node
  cases h : alookup g.adj n with
  | some l => rfl
  | none =>
    unfold successors
    simp only [alookup_append]
    cases hu : alookup g.adj u with
    | some l => simp
    | none =>
      by_cases hn : n = u
      · subst hn
        simp [alookup, h]
      · simp [alookup, hn]

theorem adj_add_node (g : Graph) (n : Nat) (d : Option Int) (u v : Nat) :
    Adj (add_node g n d) u v ↔ Adj g u v := by
  unfold Adj
  rw [successors_add_node]

theorem acyclic_add_node (g : Graph) (n : Nat) (d : Option Int) (h : Acyclic g) :
    Acyclic (add_node g n d) := by
  intro m hm
  apply h m
  refine Relation.TransGen.mono ?_ hm
  intro a b hab
  exact (adj_add_node g n d a b).mp hab

end SortableLemmas

instance {ε α : Type} [DecidableEq ε] [DecidableEq α] : DecidableEq (Except ε α) := by
  intro x y
  cases x <;> cases y
  case error.error e f =>
    by_cases h : e = f
    · exact isTrue (by rw [h])
    · exact isFalse (fun hh => by cases hh; exact h rfl)
  case ok.ok a b =>
    by_cases h : a = b
    · exact isTrue (by rw [h])
    · exact isFalse (fun hh => by cases hh; exact h rfl)
  case error.ok e a => exact isFalse (fun hh => by cases hh)
  case ok.error a e => exact isFalse (fun hh => by cases hh)

section Reachability

/-- A set of nodes closed under following edges. -/
def Closed (g : Graph) (S : Nat → Prop) : Prop := ∀ x, S x → ∀ y, Adj g x y → S y

/-- No member of the set lies on a directed cycle. -/
def NoLoop (g : Graph) (S : Nat → Prop) : Prop := ∀ x, S x → ¬ Reaches1 g x x

/-- The black nodes of the coloring DFS: visited and no longer on the
recursion stack. -/
def BlackOf (V R : List Nat) : Nat → Prop := fun x => x ∈ V ∧ x ∉ R

/-- The invariant of the coloring DFS: the black set is closed under edges
and contains no node of any cycle. -/
def DCInv (g : Graph) (V R : List Nat) : Prop :=
  Closed g (BlackOf V R) ∧ NoLoop g (BlackOf V R)

/-- The recursion stack lists the current DFS path, deepest node first. -/
def Stacked (g : Graph) (R : List Nat) : Prop := R.Chain' (fun a b => Adj g b a)

/-- `n` is a successor of the top of the recursion stack (when nonempty). -/
def HeadAdj (g : Graph) (R : List Nat) (n : Nat) : Prop :=
  ∀ h t, R = h :: t → Adj g h n

theorem closed_reach {g : Graph} {S : Nat → Prop} (hC : Closed g S) {x y : Nat}
    (hx : S x) (h : Reaches g x y) : S y := by
  induction h with
  | refl => exact hx
  | tail _ step ih => exact hC _ ih _ step

theorem reach_head_of_stacked {g : Graph} {a x : Nat} {t : List Nat}
    (hs : Stacked g (a :: t)) (hx : x ∈ a :: t) : Reaches g x a := by
  induction t generalizing a with
  | nil =>
    rcases List.mem_singleton.mp hx with rfl
    exact Relation.ReflTransGen.refl
  | cons b t' ih =>
    rcases List.mem_cons.mp hx with rfl | hx'
    · exact Relation.ReflTransGen.refl
    · have hchain := List.chain'_cons.mp hs
      exact Relation.ReflTransGen.tail (ih hchain.2 hx') hchain.1

theorem cycle_of_stack_hit {g : Graph} {h nb : Nat} {t : List Nat}
    (hs : Stacked g (h :: t)) (hmem : nb ∈ h :: t) (hadj : Adj g h nb) :
    ∃ c, Reaches1 g c c :=
  ⟨nb, Relation.TransGen.tail' (reach_head_of_stacked hs hmem) hadj⟩

theorem adj_src_mem_keys {g : Graph} {u v : Nat} (h : Adj g u v) :
    u ∈ akeys g.adj := by
  unfold Adj SortableDigraph.successors at h
  cases hl : alookup g.adj u with
  | none => rw [hl] at h; simp at h
  | some l => exact mem_akeys_of_alookup _ _ _ hl

theorem alookup_mem {α : Type u} {β : Type v} [DecidableEq α]
    {l : List (α × β)} {k : α} {b : β} (h : alookup l k = some b) : (k, b) ∈ l := by
  induction l with
  | nil => simp [alookup] at h
  | cons p t ih =>
    by_cases hp : p.1 = k
    · rw [alookup, if_pos hp] at h
      have hb : p.2 = b := by injection h
      have hpk : (k, b) = p := by rw [← hp, ← hb]
      rw [hpk]
      exact List.mem_cons_self _ _
    · rw [alookup, if_neg hp] at h
      exact List.mem_cons_of_mem _ (ih h)

theorem successors_subset_nodesOf (g : Graph) (u : Nat) :
    ∀ x ∈ SortableDigraph.successors g u, x ∈ nodesOf g := by
  intro x hx
  unfold SortableDigraph.successors at hx
  cases hl : alookup g.adj u with
  | none => rw [hl] at hx; simp at hx
  | some l =>
    rw [hl] at hx
    simp only [Option.getD_some] at hx
    have hentry : (u, l) ∈ g.adj := alookup_mem hl
    unfold nodesOf
    refine List.mem_append_right _ ?_
    exact List.mem_flatten.mpr ⟨l, List.mem_map.mpr ⟨(u, l), hentry, rfl⟩, hx⟩

theorem keys_subset_nodesOf (g : Graph) : ∀ x ∈ akeys g.adj, x ∈ nodesOf g := by
  intro x hx
  exact List.mem_append_left _ hx

theorem adj_dst_mem_nodesOf {g : Graph} {u v : Nat} (h : Adj g u v) :
    v ∈ nodesOf g :=
  successors_subset_nodesOf g u v h

end Reachability

section SetAddLemmas

variable {α : Type u} [DecidableEq α]

theorem mem_setAdd_of_mem {x a : α} {s : List α} (h : x ∈ s) : x ∈ setAdd a s := by
  unfold setAdd
  by_cases ha : a ∈ s <;> simp [ha, h]

theorem mem_setAdd_self (a : α) (s : List α) : a ∈ setAdd a s := by
  unfold setAdd
  by_cases ha : a ∈ s <;> simp [ha]

theorem mem_setAdd_iff {x a : α} {s : List α} : x ∈ setAdd a s ↔ x = a ∨ x ∈ s := by
  unfold setAdd
  by_cases ha : a ∈ s
  · simp only [if_pos ha]
    constructor
    · exact Or.inr
    · rintro (rfl | h) <;> [exact ha; exact h]
  · simp [if_neg ha]

theorem setAdd_eq_cons {a : α} {s : List α} (h : a ∉ s) : setAdd a s = a :: s := by
  unfold setAdd
  rw [if_neg h]

theorem filter_length_mono {p q : α → Bool} (l : List α)
    (h : ∀ x ∈ l, p x = true → q x = true) :
    (l.filter p).length ≤ (l.filter q).length := by
  induction l with
  | nil => simp
  | cons a t ih =>
    have iht := ih (fun x hx => h x (List.mem_cons_of_mem _ hx))
    by_cases hp : p a = true
    · rw [List.filter_cons_of_pos hp, List.filter_cons_of_pos (h a (List.mem_cons_self _ _) hp)]
      simpa using iht
    · rw [List.filter_cons_of_neg (by simpa using hp)]
      refine le_trans iht ?_
      by_cases hq : q a = true
      · rw [List.filter_cons_of_pos hq]; simp
      · rw [List.filter_cons_of_neg (by simpa using hq)]

end SetAddLemmas

namespace DAG

/-- The number of nodes of `g` not yet visited: the fuel bound for the DFS
recursions. -/
def mUnv (g : Graph) (V : List Nat) : Nat :=
  ((nodesOf g).dedup.filter (fun x => decide (x ∉ V))).length

theorem mUnv_le (g : Graph) (V : List Nat) : mUnv g V ≤ (nodesOf g).length := by
  unfold mUnv
  calc ((nodesOf g).dedup.filter (fun x => decide (x ∉ V))).length
      ≤ (nodesOf g).dedup.length := List.length_filter_le _ _
    _ ≤ (nodesOf g).length := List.Sublist.length_le (List.dedup_sublist _)

theorem mUnv_mono (g : Graph) {V V' : List Nat} (h : ∀ x ∈ V, x ∈ V') :
    mUnv g V' ≤ mUnv g V := by
  unfold mUnv
  refine filter_length_mono _ ?_
  intro x _ hx
  simp only [decide_eq_true_eq] at *
  intro hmem
  exact hx (h x hmem)

theorem length_filter_ne_of_nodup {l : List Nat} {a : Nat}
    (hnd : l.Nodup) (ha : a ∈ l) :
    (l.filter (fun x => decide (x ≠ a))).length + 1 = l.length := by
  induction l with
  | nil => cases ha
  | cons b t ih =>
    rcases List.mem_cons.mp ha with rfl | hat
    · rw [List.filter_cons_of_neg (by simp)]
      have hbt : a ∉ t := (List.nodup_cons.mp hnd).1
      have hft : t.filter (fun x => decide (x ≠ a)) = t := by
        rw [List.filter_eq_self]
        intro x hx
        simp only [decide_eq_true_eq]
        exact fun hh => hbt (hh ▸ hx)
      rw [hft, List.length_cons]
    · have hba : b ≠ a := by
        rintro rfl
        exact (List.nodup_cons.mp hnd).1 hat
      rw [List.filter_cons_of_pos (by simpa using hba)]
      have iht := ih (List.nodup_cons.mp hnd).2 hat
      simp only [List.length_cons]
      omega

theorem mUnv_setAdd (g : Graph) {node : Nat} {V : List Nat}
    (hn : node ∈ nodesOf g) (hv : node ∉ V) :
    mUnv g (setAdd node V) + 1 = mUnv g V := by
  unfold mUnv
  have hfe : ∀ x ∈ (nodesOf g).dedup,
      (decide (x ∉ setAdd node V)) = ((decide (x ≠ node)) && (decide (x ∉ V))) := by
    intro x _
    by_cases h1 : x ∈ setAdd node V
    · rcases mem_setAdd_iff.mp h1 with rfl | h2
      · simp [h1, mem_setAdd_self]
      · simp [h1, h2]
    · have h2 : x ∉ V := fun hh => h1 (mem_setAdd_of_mem hh)
      have h3 : x ≠ node := fun hh => h1 (hh ▸ mem_setAdd_self node V)
      simp [h1, h2, h3]
  rw [List.filter_congr hfe, ← List.filter_filter]
  have hmemf : node ∈ (nodesOf g).dedup.filter (fun x => decide (x ∉ V)) := by
    rw [List.mem_filter]
    exact ⟨List.mem_dedup.mpr hn, by simpa using hv⟩
  have hnd : ((nodesOf g).dedup.filter (fun x => decide (x ∉ V))).Nodup :=
    List.Nodup.filter _ (List.nodup_dedup _)
  exact length_filter_ne_of_nodup hnd hmemf

theorem dcStep_grow (dcN : Nat → List Nat → List Nat → Option (Bool × List Nat × List Nat))
    (hg : ∀ n V R res, dcN n V R = some res → ∀ x ∈ V, x ∈ res.2.1) :
    ∀ nbrs V R res, dcStep dcN nbrs V R = some res → ∀ x ∈ V, x ∈ res.2.1 := by
  intro nbrs
  induction nbrs with
  | nil =>
    intro V R res h x hx
    simp only [dcStep] at h
    cases h
    exact hx
  | cons nb rest ih =>
    intro V R res h x hx
    simp only [dcStep] at h
    by_cases h1 : nb ∈ V
    · rw [if_pos h1] at h
      by_cases h2 : nb ∈ R
      · rw [if_pos h2] at h; cases h; exact hx
      · rw [if_neg h2] at h; exact ih V R res h x hx
    · rw [if_neg h1] at h
      cases hN : dcN nb V R with
      | none => rw [hN] at h; cases h
      | some res' =>
        rw [hN] at h
        replace h : (if res'.1 = true then some res'
            else if nb ∈ res'.2.2 then some (true, res'.2.1, res'.2.2)
            else dcStep dcN rest res'.2.1 res'.2.2) = some res := h
        have hv' : ∀ y ∈ V, y ∈ res'.2.1 := hg nb V R res' hN
        cases hb : res'.1
        · rw [if_neg (by simp [hb])] at h
          by_cases h2 : nb ∈ res'.2.2
          · rw [if_pos h2] at h; cases h; exact hv' x hx
          · rw [if_neg h2] at h
            exact ih res'.2.1 res'.2.2 res h x (hv' x hx)
        · rw [if_pos hb] at h
          cases h; exact hv' x hx

theorem dcVisit_grow (g : Graph) : ∀ fuel node V R res,
    dcVisit g fuel node V R = some res →
    (∀ x ∈ V, x ∈ res.2.1) ∧ node ∈ res.2.1 := by
  intro fuel
  induction fuel with
  | zero => intro node V R res h; simp [dcVisit] at h
  | succ fuel ih =>
    intro node V R res h
    simp only [dcVisit] at h
    have hg : ∀ n V' R' res', dcVisit g fuel n V' R' = some res' → ∀ x ∈ V', x ∈ res'.2.1 :=
      fun n V' R' res' hh => (ih n V' R' res' hh).1
    cases hstep : dcStep (dcVisit g fuel)
        (SortableDigraph.successors g node) (setAdd node V) (setAdd node R) with
    | none => rw [hstep] at h; cases h
    | some res' =>
      rw [hstep] at h
      replace h : (if res'.1 = true then some res'
          else some (false, res'.2.1, res'.2.2.erase node)) = some res := h
      have hsub : ∀ x ∈ setAdd node V, x ∈ res'.2.1 :=
        dcStep_grow _ hg _ _ _ _ hstep
      have hmain : (∀ x ∈ V, x ∈ res'.2.1) ∧ node ∈ res'.2.1 :=
        ⟨fun x hx => hsub x (mem_setAdd_of_mem hx), hsub node (mem_setAdd_self _ _)⟩
      cases hb : res'.1
      · rw [if_neg (by simp [hb])] at h
        cases h
        exact hmain
      · rw [if_pos hb] at h
        cases h
        exact hmain

theorem dcStep_isSome (g : Graph) (m : Nat)
    (dcN : Nat → List Nat → List Nat → Option (Bool × List Nat × List Nat))
    (hg : ∀ n V R res, dcN n V R = some res → ∀ x ∈ V, x ∈ res.2.1)
    (hs : ∀ n V R, n ∈ nodesOf g → n ∉ V → mUnv g V ≤ m → (dcN n V R).isSome = true) :
    ∀ nbrs V R, (∀ x ∈ nbrs, x ∈ nodesOf g) → mUnv g V ≤ m →
    (dcStep dcN nbrs V R).isSome = true := by
  intro nbrs
  induction nbrs with
  | nil => intro V R _ _; simp [dcStep]
  | cons nb rest ih =>
    intro V R hnb hm
    simp only [dcStep]
    by_cases h1 : nb ∈ V
    · rw [if_pos h1]
      by_cases h2 : nb ∈ R
      · rw [if_pos h2]; rfl
      · rw [if_neg h2]
        exact ih V R (fun x hx => hnb x (List.mem_cons_of_mem _ hx)) hm
    · rw [if_neg h1]
      have hnbn : nb ∈ nodesOf g := hnb nb (List.mem_cons_self _ _)
      have hsome := hs nb V R hnbn h1 hm
      cases hN : dcN nb V R with
      | none => rw [hN] at hsome; cases hsome
      | some res' =>
        show (if res'.1 = true then some res'
            else if nb ∈ res'.2.2 then some (true, res'.2.1, res'.2.2)
            else dcStep dcN rest res'.2.1 res'.2.2).isSome = true
        have hv' : ∀ y ∈ V, y ∈ res'.2.1 := hg nb V R res' hN
        have hm' : mUnv g res'.2.1 ≤ m := le_trans (mUnv_mono g hv') hm
        cases hb : res'.1
        · rw [if_neg (by simp [hb])]
          by_cases h2 : nb ∈ res'.2.2
          · rw [if_pos h2]; rfl
          · rw [if_neg h2]
            exact ih res'.2.1 res'.2.2 (fun x hx => hnb x (List.mem_cons_of_mem _ hx)) hm'
        · rw [if_pos rfl]; rfl

theorem dcVisit_isSome (g : Graph) : ∀ fuel node V R,
    node ∈ nodesOf g → node ∉ V → mUnv g V ≤ fuel →
    (dcVisit g fuel node V R).isSome = true := by
  intro fuel
  induction fuel with
  | zero =>
    intro node V R hn hv hm
    exfalso
    have h1 := mUnv_setAdd g hn hv
    omega
  | succ fuel ih =>
    intro node V R hn hv hm
    simp only [dcVisit]
    have hg : ∀ n V' R' res', dcVisit g fuel n V' R' = some res' → ∀ x ∈ V', x ∈ res'.2.1 :=
      fun n V' R' res' hh => (dcVisit_grow g fuel n V' R' res' hh).1
    have hm1 : mUnv g (setAdd node V) ≤ fuel := by
      have h1 := mUnv_setAdd g hn hv
      omega
    have hstep := dcStep_isSome g fuel (dcVisit g fuel) hg
      (fun n V' R' hn' hv' hm' => ih n V' R' hn' hv' hm')
      (SortableDigraph.successors g node) (setAdd node V) (setAdd node R)
      (successors_subset_nodesOf g node) hm1
    cases hres : dcStep (dcVisit g fuel)
        (SortableDigraph.successors g node) (setAdd node V) (setAdd node R) with
    | none => rw [hres] at hstep; cases hstep
    | some res' =>
      show (if res'.1 = true then some res'
          else some (false, res'.2.1, res'.2.2.erase node)).isSome = true
      cases hb : res'.1
      · rw [if_neg (by simp [hb])]; rfl
      · rw [if_pos rfl]; rfl

theorem dcLoop_isSome (g : Graph) : ∀ entries V R,
    (∀ x ∈ entries, x ∈ nodesOf g) →
    (dcLoop g (TraversableDigraph.travFuel g) entries V R).isSome = true := by
  intro entries
  induction entries with
  | nil => intro V R _; simp [dcLoop]
  | cons n rest ih =>
    intro V R hent
    simp only [dcLoop]
    by_cases h1 : n ∈ V
    · rw [if_pos h1]
      exact ih V R (fun x hx => hent x (List.mem_cons_of_mem _ hx))
    · rw [if_neg h1]
      have hm : mUnv g V ≤ TraversableDigraph.travFuel g := by
        have h2 := mUnv_le g V
        unfold TraversableDigraph.travFuel
        omega
      have hsome := dcVisit_isSome g (TraversableDigraph.travFuel g) n V R
        (hent n (List.mem_cons_self _ _)) h1 hm
      cases hN : dcVisit g (TraversableDigraph.travFuel g) n V R with
      | none => rw [hN] at hsome; cases hsome
      | some res' =>
        show (if res'.1 = true then some true
            else dcLoop g (TraversableDigraph.travFuel g) rest res'.2.1 res'.2.2).isSome = true
        cases hb : res'.1
        · rw [if_neg (by simp [hb])]
          exact ih res'.2.1 res'.2.2 (fun x hx => hent x (List.mem_cons_of_mem _ hx))
        · rw [if_pos rfl]; rfl

theorem transGen_head_decomp {g : Graph} {a b : Nat} (h : Reaches1 g a b) :
    ∃ c, Adj g a c ∧ Reaches g c b :=
  Relation.TransGen.head'_iff.mp h

theorem closed_congr {g : Graph} {S T : Nat → Prop} (h : ∀ x, S x ↔ T x)
    (hc : Closed g S) : Closed g T := by
  intro x hx y hxy
  exact (h y).mp (hc x ((h x).mpr hx) y hxy)

theorem noloop_congr {g : Graph} {S T : Nat → Prop} (h : ∀ x, S x ↔ T x)
    (hn : NoLoop g S) : NoLoop g T := by
  intro x hx
  exact hn x ((h x).mpr hx)

theorem dcinv_push {g : Graph} {node : Nat} {V R : List Nat} (hnV : node ∉ V)
    (hinv : DCInv g V R) : DCInv g (node :: V) (node :: R) := by
  have hiff : ∀ x, BlackOf V R x ↔ BlackOf (node :: V) (node :: R) x := by
    intro x
    unfold BlackOf
    constructor
    · rintro ⟨h1, h2⟩
      refine ⟨List.mem_cons_of_mem _ h1, ?_⟩
      intro hx
      rcases List.mem_cons.mp hx with rfl | hx'
      · exact hnV h1
      · exact h2 hx'
    · rintro ⟨h1, h2⟩
      have hxne : x ≠ node := fun hh => h2 (hh ▸ List.mem_cons_self _ _)
      rcases List.mem_cons.mp h1 with rfl | h1'
      · exact absurd rfl hxne
      · exact ⟨h1', fun hh => h2 (List.mem_cons_of_mem _ hh)⟩
  exact ⟨closed_congr hiff hinv.1, noloop_congr hiff hinv.2⟩

theorem dcinv_extend {g : Graph} {node : Nat} {V' R : List Nat}
    (hnode : node ∈ V') (hnR : node ∉ R)
    (hsucc : ∀ y, Adj g node y → y ∈ V' ∧ y ∉ node :: R)
    (hinv : DCInv g V' (node :: R)) : DCInv g V' R := by
  have hblack : ∀ x, BlackOf V' R x ↔ (BlackOf V' (node :: R) x ∨ x = node) := by
    intro x
    unfold BlackOf
    constructor
    · rintro ⟨h1, h2⟩
      by_cases hx : x = node
      · exact Or.inr hx
      · refine Or.inl ⟨h1, ?_⟩
        intro hh
        rcases List.mem_cons.mp hh with hh' | hh'
        · exact hx hh'
        · exact h2 hh'
    · rintro (⟨h1, h2⟩ | rfl)
      · exact ⟨h1, fun hh => h2 (List.mem_cons_of_mem _ hh)⟩
      · exact ⟨hnode, hnR⟩
  constructor
  · intro x hx y hxy
    rcases (hblack x).mp hx with hx' | rfl
    · exact (hblack y).mpr (Or.inl (hinv.1 x hx' y hxy))
    · exact (hblack y).mpr (Or.inl (hsucc y hxy))
  · intro x hx hcyc
    rcases (hblack x).mp hx with hx' | rfl
    · exact hinv.2 x hx' hcyc
    · obtain ⟨y, hy, hyr⟩ := transGen_head_decomp hcyc
      have hyb : BlackOf V' (x :: R) y := hsucc y hy
      have hxb : BlackOf V' (x :: R) x := closed_reach hinv.1 hyb hyr
      exact hxb.2 (List.mem_cons_self _ _)

/-- Joint invariant lemma for the neighbor loop of `dfs_cycle`: on a `false`
result the recursion stack is restored, the black-set invariant holds and
every processed neighbor ends up black; on a `true` result the graph has a
cycle. -/
theorem dcStep_main (g : Graph)
    (dcN : Nat → List Nat → List Nat → Option (Bool × List Nat × List Nat))
    (hNg : ∀ n V R res, dcN n V R = some res →
      (∀ x ∈ V, x ∈ res.2.1) ∧ n ∈ res.2.1)
    (hN : ∀ node V R res, dcN node V R = some res →
      (∀ x ∈ R, x ∈ V) → node ∉ V → Stacked g R → HeadAdj g R node → DCInv g V R →
      (res.1 = false → res.2.2 = R ∧ DCInv g res.2.1 R) ∧
      (res.1 = true → ∃ c, Reaches1 g c c)) :
    ∀ nbrs V R res, dcStep dcN nbrs V R = some res →
      (∀ x ∈ R, x ∈ V) → Stacked g R → (∀ nb ∈ nbrs, HeadAdj g R nb) → DCInv g V R →
      (res.1 = false → res.2.2 = R ∧ DCInv g res.2.1 R ∧
        (∀ nb ∈ nbrs, nb ∈ res.2.1 ∧ nb ∉ R)) ∧
      (res.1 = true → ∃ c, Reaches1 g c c) := by
  have hNg1 : ∀ n V R res, dcN n V R = some res → ∀ x ∈ V, x ∈ res.2.1 :=
    fun n V R res hh => (hNg n V R res hh).1
  intro nbrs
  induction nbrs with
  | nil =>
    intro V R res h hRV hst hhead hinv
    simp only [dcStep] at h
    cases h
    constructor
    · intro _
      refine ⟨rfl, hinv, ?_⟩
      intro x hx
      cases hx
    · intro hf
      cases hf
  | cons nb rest ih =>
    intro V R res h hRV hst hhead hinv
    simp only [dcStep] at h
    by_cases h1 : nb ∈ V
    · rw [if_pos h1] at h
      by_cases h2 : nb ∈ R
      · rw [if_pos h2] at h
        cases h
        refine ⟨fun hf => Bool.noConfusion hf, fun _ => ?_⟩
        cases hR : R with
        | nil => rw [hR] at h2; cases h2
        | cons hd tl =>
          rw [hR] at h2 hst
          exact cycle_of_stack_hit hst h2
            (hhead nb (List.mem_cons_self _ _) hd tl hR)
      · rw [if_neg h2] at h
        have hrec := ih V R res h hRV hst
          (fun x hx => hhead x (List.mem_cons_of_mem _ hx)) hinv
        refine ⟨fun hf => ?_, hrec.2⟩
        obtain ⟨hrest, hinv', hblk⟩ := hrec.1 hf
        refine ⟨hrest, hinv', ?_⟩
        intro x hx
        rcases List.mem_cons.mp hx with rfl | hx'
        · exact ⟨dcStep_grow dcN hNg1 rest V R res h x h1, h2⟩
        · exact hblk x hx'
    · rw [if_neg h1] at h
      have hnbR : nb ∉ R := fun hh => h1 (hRV nb hh)
      cases hOpt : dcN nb V R with
      | none => rw [hOpt] at h; cases h
      | some res' =>
        rw [hOpt] at h
        replace h : (if res'.1 = true then some res'
            else if nb ∈ res'.2.2 then some (true, res'.2.1, res'.2.2)
            else dcStep dcN rest res'.2.1 res'.2.2) = some res := h
        have hNres := hN nb V R res' hOpt hRV h1 hst
          (hhead nb (List.mem_cons_self _ _)) hinv
        cases hb : res'.1
        · rw [if_neg (by simp [hb])] at h
          obtain ⟨hrest', hinv'⟩ := hNres.1 hb
          rw [hrest', if_neg hnbR] at h
          have hVsub : ∀ x ∈ V, x ∈ res'.2.1 := hNg1 nb V R res' hOpt
          have hrec := ih res'.2.1 R res h
            (fun x hx => hVsub x (hRV x hx)) hst
            (fun x hx => hhead x (List.mem_cons_of_mem _ hx)) hinv'
          refine ⟨fun hf => ?_, hrec.2⟩
          obtain ⟨hrest, hinv'', hblk⟩ := hrec.1 hf
          refine ⟨hrest, hinv'', ?_⟩
          intro x hx
          rcases List.mem_cons.mp hx with rfl | hx'
          · have hnbV' : x ∈ res'.2.1 := (hNg x V R res' hOpt).2
            exact ⟨dcStep_grow dcN hNg1 rest res'.2.1 R res h x hnbV', hnbR⟩
          · exact hblk x hx'
        · rw [if_pos hb] at h
          cases h
          exact ⟨fun hf => Bool.noConfusion (hb ▸ hf), fun _ => hNres.2 hb⟩

/-- Main invariant lemma for `dfs_cycle`: on a `false` result the recursion
stack is restored and the newly finished node joins the black set; on a
`true` result the graph has a cycle. -/
theorem dcVisit_main (g : Graph) : ∀ fuel node V R res,
    dcVisit g fuel node V R = some res →
    (∀ x ∈ R, x ∈ V) → node ∉ V → Stacked g R → HeadAdj g R node → DCInv g V R →
    (res.1 = false → res.2.2 = R ∧ DCInv g res.2.1 R) ∧
    (res.1 = true → ∃ c, Reaches1 g c c) := by
  intro fuel
  induction fuel with
  | zero => intro node V R res h; simp [dcVisit] at h
  | succ fuel ih =>
    intro node V R res h hRV hnV hst hhead hinv
    simp only [dcVisit] at h
    have hnR : node ∉ R := fun hh => hnV (hRV node hh)
    rw [setAdd_eq_cons hnV, setAdd_eq_cons hnR] at h
    cases hstep : dcStep (dcVisit g fuel)
        (SortableDigraph.successors g node) (node :: V) (node :: R) with
    | none => rw [hstep] at h; cases h
    | some res' =>
      rw [hstep] at h
      replace h : (if res'.1 = true then some res'
          else some (false, res'.2.1, res'.2.2.erase node)) = some res := h
      have hRV1 : ∀ x ∈ node :: R, x ∈ node :: V := by
        intro x hx
        rcases List.mem_cons.mp hx with rfl | hx'
        · exact List.mem_cons_self _ _
        · exact List.mem_cons_of_mem _ (hRV x hx')
      have hst1 : Stacked g (node :: R) := by
        cases hR : R with
        | nil => simp [Stacked]
        | cons hd tl =>
          rw [hR] at hst
          exact List.chain'_cons.mpr ⟨hhead hd tl hR, hst⟩
      have hhead1 : ∀ nb ∈ SortableDigraph.successors g node, HeadAdj g (node :: R) nb := by
        intro nb hnb hd tl heq
        injection heq with h1 _
        rw [← h1]
        exact hnb
      have hinv1 : DCInv g (node :: V) (node :: R) := dcinv_push hnV hinv
      have hmain := dcStep_main g (dcVisit g fuel)
        (fun n V' R' res'' hh => dcVisit_grow g fuel n V' R' res'' hh)
        (fun n V' R' res'' hh a b c d e => ih n V' R' res'' hh a b c d e)
        (SortableDigraph.successors g node) (node :: V) (node :: R) res' hstep
        hRV1 hst1 hhead1 hinv1
      cases hb : res'.1
      · rw [if_neg (by simp [hb])] at h
        cases h
        obtain ⟨hrest, hinv', hblk⟩ := hmain.1 hb
        refine ⟨fun _ => ?_, fun hf => Bool.noConfusion hf⟩
        have hnodeV' : node ∈ res'.2.1 :=
          dcStep_grow (dcVisit g fuel)
            (fun n V' R' res'' hh => (dcVisit_grow g fuel n V' R' res'' hh).1)
            (SortableDigraph.successors g node) (node :: V) (node :: R) res' hstep
            node (List.mem_cons_self _ _)
        constructor
        · show res'.2.2.erase node = R
          rw [hrest]
          exact List.erase_cons_head node R
        · exact dcinv_extend hnodeV' hnR (fun y hy => hblk y hy) hinv'
      · rw [if_pos hb] at h
        cases h
        exact ⟨fun hf => Bool.noConfusion (hb ▸ hf), fun _ => hmain.2 hb⟩

/-- Invariant lemma for the outer loop of `_detect_cycle`. -/
theorem dcLoop_main (g : Graph) (fuel : Nat) : ∀ entries V b,
    dcLoop g fuel entries V [] = some b → DCInv g V [] →
    (b = true → ∃ c, Reaches1 g c c) ∧
    (b = false → ∃ Vf, DCInv g Vf [] ∧ (∀ x ∈ V, x ∈ Vf) ∧ ∀ n ∈ entries, n ∈ Vf) := by
  intro entries
  induction entries with
  | nil =>
    intro V b h hinv
    simp only [dcLoop] at h
    cases h
    refine ⟨fun hf => Bool.noConfusion hf, fun _ => ⟨V, hinv, fun x hx => hx, ?_⟩⟩
    intro x hx
    cases hx
  | cons n rest ih =>
    intro V b h hinv
    simp only [dcLoop] at h
    by_cases h1 : n ∈ V
    · rw [if_pos h1] at h
      have hrec := ih V b h hinv
      refine ⟨hrec.1, fun hf => ?_⟩
      obtain ⟨Vf, hinvf, hsub, hent⟩ := hrec.2 hf
      refine ⟨Vf, hinvf, hsub, ?_⟩
      intro x hx
      rcases List.mem_cons.mp hx with rfl | hx'
      · exact hsub x h1
      · exact hent x hx'
    · rw [if_neg h1] at h
      cases hN : dcVisit g fuel n V [] with
      | none => rw [hN] at h; cases h
      | some res' =>
        rw [hN] at h
        replace h : (if res'.1 = true then some true
            else dcLoop g fuel rest res'.2.1 res'.2.2) = some b := h
        have hmain := dcVisit_main g fuel n V [] res' hN
          (by intro x hx; cases hx) h1 (by simp [Stacked])
          (fun hd tl heq => List.noConfusion heq) hinv
        cases hb : res'.1
        · rw [if_neg (by simp [hb])] at h
          obtain ⟨hrest, hinv'⟩ := hmain.1 hb
          rw [hrest] at h
          have hgrow := dcVisit_grow g fuel n V [] res' hN
          have hrec := ih res'.2.1 b h hinv'
          refine ⟨hrec.1, fun hf => ?_⟩
          obtain ⟨Vf, hinvf, hsub, hent⟩ := hrec.2 hf
          refine ⟨Vf, hinvf, fun x hx => hsub x (hgrow.1 x hx), ?_⟩
          intro x hx
          rcases List.mem_cons.mp hx with rfl | hx'
          · exact hsub x hgrow.2
          · exact hent x hx'
        · rw [if_pos hb] at h
          cases h
          exact ⟨fun _ => hmain.2 hb, fun hf => Bool.noConfusion hf⟩

/-- Correctness of the DFS-coloring detector: it reports `true` exactly when
some node lies on a directed cycle. -/
theorem detect_cycle_eq_true_iff (g : Graph) :
    detect_cycle g = true ↔ ∃ c, Reaches1 g c c := by
  have hsome := dcLoop_isSome g (akeys g.adj) [] [] (keys_subset_nodesOf g)
  obtain ⟨b, hb⟩ := Option.isSome_iff_exists.mp hsome
  have hdet : detect_cycle g = b := by
    unfold detect_cycle
    rw [hb]
    rfl
  have hinv0 : DCInv g [] [] :=
    ⟨fun x hx => absurd hx.1 (List.not_mem_nil x),
     fun x hx => absurd hx.1 (List.not_mem_nil x)⟩
  have hmain := dcLoop_main g (TraversableDigraph.travFuel g) (akeys g.adj) [] b hb hinv0
  constructor
  · intro hdt
    exact hmain.1 (by rw [← hdet, hdt])
  · intro hcyc
    cases hbv : b with
    | true => rw [hdet, hbv]
    | false =>
      exfalso
      obtain ⟨Vf, hinvf, _, hent⟩ := hmain.2 hbv
      obtain ⟨c, hc⟩ := hcyc
      obtain ⟨y, hy, _⟩ := transGen_head_decomp hc
      have hck : c ∈ akeys g.adj := adj_src_mem_keys hy
      exact hinvf.2 c ⟨hent c hck, List.not_mem_nil c⟩ hc

/-- The detector reports `false` exactly on acyclic graph states. -/
theorem detect_cycle_eq_false_iff (g : Graph) :
    detect_cycle g = false ↔ Acyclic g := by
  constructor
  · intro h n hn
    have ht := (detect_cycle_eq_true_iff g).mpr ⟨n, hn⟩
    rw [h] at ht
    cases ht
  · intro hac
    cases hd : detect_cycle g with
    | false => rfl
    | true =>
      obtain ⟨c, hc⟩ := (detect_cycle_eq_true_iff g).mp hd
      exact absurd hc (hac c)

end DAG

theorem Graph.eq_of_parts {a b : Graph} (h1 : a.adj = b.adj)
    (h2 : a.node_data = b.node_data) (h3 : a.edge_weights = b.edge_weights) :
    a = b := by
  cases a
  cases b
  simp only at h1 h2 h3
  rw [h1, h2, h3]

section AddEdgeLemmas

open SortableDigraph

theorem edge_weights_add_node (g : Graph) (n : Nat) (d : Option Int) :
    (add_node g n d).edge_weights = g.edge_weights := by
  unfold add_node
  cases alookup g.adj n <;> rfl

theorem node_data_add_edge (g : Graph) (u v : Nat) (w : Option Int) :
    (add_edge g u v w).node_data = (add_node (add_node g u none) v none).node_data := rfl

theorem alookup_add_node_self (g : Graph) (n : Nat) (d : Option Int) :
    alookup (add_node g n d).adj n = some (successors g n) := by
  unfold add_node
  cases hl : alookup g.adj n with
  | some l =>
    show alookup g.adj n = _
    rw [hl]
    unfold successors
    rw [hl]
    rfl
  | none =>
    show alookup (g.adj ++ [(n, [])]) n = _
    rw [alookup_append, hl]
    unfold successors
    rw [hl]
    show alookup [(n, [])] n = some []
    show (if n = n then some [] else alookup [] n) = some []
    rw [if_pos rfl]

theorem alookup_add_node_ne (g : Graph) {m n : Nat} (d : Option Int) (h : m ≠ n) :
    alookup (add_node g n d).adj m = alookup g.adj m := by
  unfold add_node
  cases hl : alookup g.adj n with
  | some l => rfl
  | none =>
    show alookup (g.adj ++ [(n, [])]) m = _
    rw [alookup_append]
    cases hm : alookup g.adj m with
    | some l => rfl
    | none =>
      show alookup [(n, [])] m = none
      show (if n = m then some [] else alookup [] m) = none
      rw [if_neg (fun hh : n = m => h hh.symm)]
      rfl

theorem alookup_ensure_endpoints (g : Graph) (u v : Nat) :
    alookup (add_node (add_node g u none) v none).adj u = some (successors g u) := by
  by_cases huv : u = v
  · subst huv
    rw [alookup_add_node_self, successors_add_node]
  · rw [alookup_add_node_ne _ _ huv, alookup_add_node_self]

theorem successors_add_edge (g : Graph) (u v : Nat) (w : Option Int) (x : Nat) :
    successors (add_edge g u v w) x =
      if x = u then successors g u ++ [v] else successors g x := by
  show successors
    { add_node (add_node g u none) v none with
      adj := updFirst (add_node (add_node g u none) v none).adj u (fun l => l ++ [v]),
      edge_weights := _ } x = _
  unfold successors
  by_cases hx : x = u
  · subst hx
    rw [if_pos rfl]
    show (alookup (updFirst _ x _) x).getD [] = _
    rw [alookup_updFirst_self, alookup_ensure_endpoints]
    rfl
  · rw [if_neg hx]
    show (alookup (updFirst _ u _) x).getD [] = _
    rw [alookup_updFirst_ne _ _ _ _ hx]
    show successors (add_node (add_node g u none) v none) x = _
    rw [successors_add_node, successors_add_node]
    rfl

theorem adj_add_edge_iff (g : Graph) (u v : Nat) (w : Option Int) (a b : Nat) :
    Adj (add_edge g u v w) a b ↔ (Adj g a b ∨ (a = u ∧ b = v)) := by
  unfold Adj
  rw [successors_add_edge]
  by_cases ha : a = u
  · subst ha
    rw [if_pos rfl, List.mem_append, List.mem_singleton]
    constructor
    · rintro (h | rfl)
      · exact Or.inl h
      · exact Or.inr ⟨rfl, rfl⟩
    · rintro (h | ⟨-, rfl⟩)
      · exact Or.inl h
      · exact Or.inr rfl
  · rw [if_neg ha]
    constructor
    · exact Or.inl
    · rintro (h | ⟨rfl, rfl⟩)
      · exact h
      · exact absurd rfl ha

theorem erase_append_singleton_mem (l : List Nat) (d x : Nat) :
    x ∈ (l ++ [d]).erase d ↔ x ∈ l := by
  by_cases hd : d ∈ l
  · rw [List.erase_append_left _ hd]
    rw [List.mem_append, List.mem_singleton]
    constructor
    · rintro (h | rfl)
      · exact (List.erase_sublist _ _).mem h
      · exact hd
    · intro h
      by_cases hxd : x = d
      · exact Or.inr hxd
      · exact Or.inl (List.mem_erase_of_ne hxd |>.mpr h)
  · rw [List.erase_append_right _ hd]
    simp

theorem dag_add_edge_raised_iff (g : Graph) (s d : Nat) (w : Option Int) :
    (DAG.add_edge g s d w).2 = true ↔
      DAG.detect_cycle (add_edge g s d w) = true := by
  unfold DAG.add_edge
  by_cases hdet : DAG.detect_cycle (add_edge g s d w) = true
  · rw [if_pos hdet]
    simp [hdet]
  · rw [if_neg hdet]
    simp only [Bool.false_eq_true]
    constructor
    · intro hh
      exact absurd hh (by simp)
    · intro hh
      exact absurd hh hdet

theorem dag_add_edge_fst_raised (g : Graph) (s d : Nat) (w : Option Int)
    (hdet : DAG.detect_cycle (add_edge g s d w) = true) :
    (DAG.add_edge g s d w).1 =
      { adj := updFirst (add_edge g s d w).adj s (fun l => l.erase d),
        node_data := (add_edge g s d w).node_data,
        edge_weights := delKey (add_edge g s d w).edge_weights (s, d) } := by
  unfold DAG.add_edge
  rw [if_pos hdet]

theorem dag_add_edge_fst_ok (g : Graph) (s d : Nat) (w : Option Int)
    (hdet : ¬ DAG.detect_cycle (add_edge g s d w) = true) :
    (DAG.add_edge g s d w).1 = add_edge g s d w := by
  unfold DAG.add_edge
  rw [if_neg hdet]

theorem successors_dag_add_edge_raised (g : Graph) (s d : Nat) (w : Option Int)
    (hdet : DAG.detect_cycle (add_edge g s d w) = true) (x : Nat) :
    successors (DAG.add_edge g s d w).1 x =
      if x = s then (successors g s ++ [d]).erase d else successors g x := by
  rw [dag_add_edge_fst_raised g s d w hdet]
  unfold successors
  by_cases hx : x = s
  · subst hx
    rw [if_pos rfl]
    show (alookup (updFirst _ x _) x).getD [] = _
    rw [alookup_updFirst_self]
    have h1 : alookup (add_edge g x d w).adj x = some (successors g x ++ [d]) := by
      show alookup (updFirst (add_node (add_node g x none) d none).adj x
          (fun l => l ++ [d])) x = _
      rw [alookup_updFirst_self, alookup_ensure_endpoints]
      rfl
    rw [h1]
    rfl
  · rw [if_neg hx]
    show (alookup (updFirst _ s _) x).getD [] = _
    rw [alookup_updFirst_ne _ _ _ _ hx]
    show successors (add_edge g s d w) x = _
    rw [successors_add_edge, if_neg hx]
    rfl

theorem adj_dag_add_edge_raised_iff (g : Graph) (s d : Nat) (w : Option Int)
    (hdet : DAG.detect_cycle (add_edge g s d w) = true) (a b : Nat) :
    Adj (DAG.add_edge g s d w).1 a b ↔ Adj g a b := by
  unfold Adj
  rw [successors_dag_add_edge_raised g s d w hdet]
  by_cases ha : a = s
  · subst ha
    rw [if_pos rfl, erase_append_singleton_mem]
  · rw [if_neg ha]

/-- Both outcomes of `DAG.add_edge` preserve acyclicity. -/
theorem acyclic_dag_add_edge (g : Graph) (s d : Nat) (w : Option Int)
    (hac : Acyclic g) : Acyclic (DAG.add_edge g s d w).1 := by
  by_cases hdet : DAG.detect_cycle (add_edge g s d w) = true
  · intro n hn
    apply hac n
    refine Relation.TransGen.mono ?_ hn
    intro a b hab
    exact (adj_dag_add_edge_raised_iff g s d w hdet a b).mp hab
  · rw [dag_add_edge_fst_ok g s d w hdet]
    exact (DAG.detect_cycle_eq_false_iff _).mp (Bool.not_eq_true _ ▸ hdet)

theorem not_succ_of_raised (g : Graph) (s d : Nat) (w : Option Int) (hac : Acyclic g)
    (hdet : DAG.detect_cycle (add_edge g s d w) = true) : d ∉ successors g s := by
  intro hds
  have hiff : ∀ a b, Adj (add_edge g s d w) a b ↔ Adj g a b := by
    intro a b
    rw [adj_add_edge_iff]
    constructor
    · rintro (h | ⟨rfl, rfl⟩)
      · exact h
      · exact hds
    · exact Or.inl
  obtain ⟨c, hc⟩ := (DAG.detect_cycle_eq_true_iff _).mp hdet
  exact hac c (Relation.TransGen.mono (fun a b hab => (hiff a b).mp hab) hc)

/-- A failed `DAG.add_edge` restores the state exactly, except that the
auto-created endpoint nodes remain. -/
theorem dag_add_edge_rollback_exact (g : Graph) (s d : Nat) (w : Option Int)
    (hwf : WF g) (hac : Acyclic g) (hr : (DAG.add_edge g s d w).2 = true) :
    (DAG.add_edge g s d w).1 = add_node (add_node g s none) d none := by
  have hdet := (dag_add_edge_raised_iff g s d w).mp hr
  have hds : d ∉ successors g s := not_succ_of_raised g s d w hac hdet
  rw [dag_add_edge_fst_raised g s d w hdet]
  apply Graph.eq_of_parts
  · show updFirst (updFirst (add_node (add_node g s none) d none).adj s
        (fun l => l ++ [d])) s (fun l => l.erase d) = _
    rw [updFirst_updFirst]
    apply updFirst_congr
    intro b hb
    rw [alookup_ensure_endpoints] at hb
    injection hb with hb
    rw [← hb, List.erase_append_right _ hds, List.erase_cons_head]
    simp
  · rfl
  · show delKey (dictSet (add_node (add_node g s none) d none).edge_weights (s, d) w)
        (s, d) = (add_node (add_node g s none) d none).edge_weights
    have hew2 : (add_node (add_node g s none) d none).edge_weights = g.edge_weights := by
      rw [edge_weights_add_node, edge_weights_add_node]
    rw [hew2]
    have hkey : (s, d) ∉ akeys g.edge_weights := by
      intro hmem
      obtain ⟨q, hq, hq1⟩ := List.mem_map.mp hmem
      have hqe := hwf.2.2.2.2 q hq
      rw [hq1] at hqe
      exact hds hqe
    have hnone : alookup g.edge_weights (s, d) = none := (alookup_eq_none_iff _ _).mpr hkey
    unfold dictSet
    rw [hnone]
    exact delKey_append_singleton _ _ _ hkey

theorem add_node_mem_noop (g : Graph) (n : Nat) (d : Option Int)
    (h : n ∈ akeys g.adj) : add_node g n d = g := by
  unfold add_node
  cases hl : alookup g.adj n with
  | some l => rfl
  | none => exact absurd ((alookup_eq_none_iff _ _).mp hl) (by simp [h])

/-- Self-loop insertion always raises. -/
theorem dag_add_edge_self_raised (g : Graph) (n : Nat) (w : Option Int) :
    (DAG.add_edge g n n w).2 = true := by
  rw [dag_add_edge_raised_iff, DAG.detect_cycle_eq_true_iff]
  exact ⟨n, Relation.TransGen.single ((adj_add_edge_iff g n n w n n).mpr (Or.inr ⟨rfl, rfl⟩))⟩

theorem dag_add_edge_self_state (g : Graph) (n : Nat) (w : Option Int)
    (hwf : WF g) (hac : Acyclic g) :
    (DAG.add_edge g n n w).1 = add_node g n none := by
  have h1 := dag_add_edge_rollback_exact g n n w hwf hac (dag_add_edge_self_raised g n w)
  rw [h1]
  exact add_node_mem_noop _ _ _ (mem_akeys_of_alookup _ _ _ (alookup_add_node_self g n none))

end AddEdgeLemmas

/-- One operation of a client program against the `DAG` class. -/
inductive DOp where
  | addNodeOp (n : Nat) (d : Option Int)
  | addEdgeOp (u v : Nat) (w : Option Int)
  deriving DecidableEq

/-- Run one operation on the current state; a raising `DAG.add_edge` leaves
its (rolled-back) state in place. -/
def applyDOp (g : Graph) : DOp → Graph
  | DOp.addNodeOp n d => SortableDigraph.add_node g n d
  | DOp.addEdgeOp u v w => (DAG.add_edge g u v w).1

/-- The state reached by running a whole program on a fresh `DAG`. -/
def runDAG (ops : List DOp) : Graph := ops.foldl applyDOp Graph.empty

theorem acyclic_empty : Acyclic Graph.empty := by
  intro n hn
  obtain ⟨y, hy, _⟩ := DAG.transGen_head_decomp hn
  simp [Adj, SortableDigraph.successors, alookup, Graph.empty] at hy

theorem acyclic_applyDOp (g : Graph) (op : DOp) (h : Acyclic g) :
    Acyclic (applyDOp g op) := by
  cases op with
  | addNodeOp n d => exact acyclic_add_node g n d h
  | addEdgeOp u v w => exact acyclic_dag_add_edge g u v w h

theorem acyclic_foldl (ops : List DOp) : ∀ g, Acyclic g →
    Acyclic (ops.foldl applyDOp g) := by
  induction ops with
  | nil => exact fun g h => h
  | cons op rest ih => exact fun g h => ih (applyDOp g op) (acyclic_applyDOp g op h)

section KahnLemmas

open SortableDigraph

/-- The number of stored edges from members of `l` into `v`. -/
def incoming (g : Graph) (l : List Nat) (v : Nat) : Int :=
  (l.map (fun u => ((successors g u).count v : Int))).sum

@[simp] theorem incoming_nil (g : Graph) (v : Nat) : incoming g [] v = 0 := rfl

theorem incoming_append (g : Graph) (l1 l2 : List Nat) (v : Nat) :
    incoming g (l1 ++ l2) v = incoming g l1 v + incoming g l2 v := by
  unfold incoming
  rw [List.map_append, List.sum_append]

theorem incoming_singleton (g : Graph) (u v : Nat) :
    incoming g [u] v = ((successors g u).count v : Int) := by
  simp [incoming]

theorem incoming_nonneg (g : Graph) (l : List Nat) (v : Nat) : 0 ≤ incoming g l v := by
  unfold incoming
  refine List.sum_nonneg ?_
  intro x hx
  obtain ⟨u, _, rfl⟩ := List.mem_map.mp hx
  exact Int.natCast_nonneg _

theorem intCast_list_sum (l : List Nat) : ((l.sum : Nat) : Int) = (l.map (fun n => (n : Int))).sum := by
  induction l with
  | nil => rfl
  | cons a t ih => simp [ih]

theorem alookup_self_of_nodup {l : List (Nat × List Nat)} (hnd : (akeys l).Nodup)
    {p : Nat × List Nat} (hp : p ∈ l) : alookup l p.1 = some p.2 := by
  induction l with
  | nil => cases hp
  | cons q t ih =>
    rcases List.mem_cons.mp hp with rfl | hp'
    · rw [alookup, if_pos rfl]
    · rw [akeys_cons, List.nodup_cons] at hnd
      have hne : ¬ q.1 = p.1 := by
        intro hh
        exact hnd.1 (hh ▸ List.mem_map.mpr ⟨p, hp', rfl⟩)
      rw [alookup, if_neg hne]
      exact ih hnd.2 hp'

theorem succs_subset_keys {g : Graph}
    (hclosed : ∀ p ∈ g.adj, ∀ v ∈ p.2, v ∈ akeys g.adj) (u : Nat) :
    ∀ x ∈ successors g u, x ∈ akeys g.adj := by
  intro x hx
  unfold successors at hx
  cases hl : alookup g.adj u with
  | none => rw [hl] at hx; cases hx
  | some l =>
    rw [hl] at hx
    exact hclosed (u, l) (alookup_mem hl) x hx

theorem initInDegree_eq_incoming_keys (g : Graph) (hnd : (akeys g.adj).Nodup) (v : Nat) :
    DAG.initInDegree g v = incoming g (akeys g.adj) v := by
  have h1 : ∀ (l : List (Nat × List Nat)),
      (∀ p ∈ l, successors g p.1 = p.2) →
      (((l.map Prod.snd).flatten.count v : Nat) : Int) = incoming g (akeys l) v := by
    intro l
    induction l with
    | nil => intro _; rfl
    | cons p t ih =>
      intro hs
      have hst : successors g p.1 = p.2 := hs p (List.mem_cons_self _ _)
      have iht := ih (fun q hq => hs q (List.mem_cons_of_mem _ hq))
      have hcons : incoming g (p.1 :: akeys t) v
          = ((successors g p.1).count v : Int) + incoming g (akeys t) v := by
        show incoming g ([p.1] ++ akeys t) v = _
        rw [incoming_append, incoming_singleton]
      rw [akeys_cons, hcons, hst, ← iht]
      show (((p.2 ++ (t.map Prod.snd).flatten).count v : Nat) : Int) = _
      rw [List.count_append]
      push_cast
      ring
  exact h1 g.adj (fun p hp => by
    unfold successors
    rw [alookup_self_of_nodup hnd hp]
    rfl)

theorem sum_le_of_sublist_nonneg : ∀ {l L : List Int}, l.Sublist L →
    (∀ x ∈ L, 0 ≤ x) → l.sum ≤ L.sum := by
  intro l L h
  induction h with
  | slnil => intro _; exact le_refl _
  | cons a hsub ih =>
    intro hpos
    rw [List.sum_cons]
    have h1 := ih (fun x hx => hpos x (List.mem_cons_of_mem _ hx))
    have h2 := hpos a (List.mem_cons_self _ _)
    omega
  | cons₂ a hsub ih =>
    intro hpos
    rw [List.sum_cons, List.sum_cons]
    have h1 := ih (fun x hx => hpos x (List.mem_cons_of_mem _ hx))
    omega

theorem sublist_sum_lt_witness {f : Nat → Int} : ∀ {l L : List Nat}, l.Sublist L →
    L.Nodup → (∀ x, 0 ≤ f x) → (l.map f).sum < (L.map f).sum →
    ∃ a, a ∈ L ∧ a ∉ l ∧ 0 < f a := by
  intro l L h
  induction h with
  | slnil => intro _ _ hlt; exact absurd hlt (lt_irrefl _)
  | cons a hsub ih =>
    intro hnd hpos hlt
    by_cases hfa : 0 < f a
    · refine ⟨a, List.mem_cons_self _ _, ?_, hfa⟩
      intro hal
      exact (List.nodup_cons.mp hnd).1 (hsub.subset hal)
    · have hfa0 : f a = 0 := le_antisymm (by omega) (hpos a)
      rw [List.map_cons, List.sum_cons, hfa0] at hlt
      obtain ⟨b, hbL, hbl, hfb⟩ := ih (List.nodup_cons.mp hnd).2 hpos (by omega)
      exact ⟨b, List.mem_cons_of_mem _ hbL, hbl, hfb⟩
  | cons₂ a hsub ih =>
    intro hnd hpos hlt
    rw [List.map_cons, List.sum_cons, List.map_cons, List.sum_cons] at hlt
    obtain ⟨b, hbL, hbl, hfb⟩ := ih (List.nodup_cons.mp hnd).2 hpos (by omega)
    refine ⟨b, List.mem_cons_of_mem _ hbL, ?_, hfb⟩
    intro hb
    rcases List.mem_cons.mp hb with rfl | hb'
    · exact (List.nodup_cons.mp hnd).1 hbL
    · exact hbl hb'

theorem incoming_le_init (g : Graph) (hnd : (akeys g.adj).Nodup) {l : List Nat}
    (hl : l.Nodup) (hsub : ∀ x ∈ l, x ∈ akeys g.adj) (v : Nat) :
    incoming g l v ≤ DAG.initInDegree g v := by
  rw [initInDegree_eq_incoming_keys g hnd]
  obtain ⟨l', hperm, hsl⟩ := List.subperm_of_subset hl hsub
  have h1 : incoming g l v = incoming g l' v := by
    unfold incoming
    exact ((hperm.map _).sum_eq).symm
  rw [h1]
  unfold incoming
  refine sum_le_of_sublist_nonneg (hsl.map _) ?_
  intro x hx
  obtain ⟨u, _, rfl⟩ := List.mem_map.mp hx
  exact Int.natCast_nonneg _

theorem incoming_gap_witness (g : Graph) (hnd : (akeys g.adj).Nodup) {l : List Nat}
    (hl : l.Nodup) (hsub : ∀ x ∈ l, x ∈ akeys g.adj) {v : Nat}
    (hlt : incoming g l v < DAG.initInDegree g v) :
    ∃ a, a ∈ akeys g.adj ∧ a ∉ l ∧ Adj g a v := by
  rw [initInDegree_eq_incoming_keys g hnd] at hlt
  obtain ⟨l', hperm, hsl⟩ := List.subperm_of_subset hl hsub
  have h1 : incoming g l v = incoming g l' v := by
    unfold incoming
    exact ((hperm.map _).sum_eq).symm
  rw [h1] at hlt
  obtain ⟨a, haK, hal', hfa⟩ :=
    sublist_sum_lt_witness (f := fun u => ((successors g u).count v : Int))
      hsl hnd (fun x => Int.natCast_nonneg _) hlt
  refine ⟨a, haK, fun ha => hal' (hperm.mem_iff.mpr ha), ?_⟩
  have : 0 < (successors g a).count v := by exact_mod_cast hfa
  exact List.count_pos_iff.mp this

theorem decStep_indeg : ∀ (nbrs : List Nat) (indeg : Nat → Int) (queue : List Nat) (v : Nat),
    (DAG.decStep nbrs indeg queue).1 v = indeg v - (nbrs.count v : Int) := by
  intro nbrs
  induction nbrs with
  | nil => intro indeg queue v; simp [DAG.decStep]
  | cons v0 rest ih =>
    intro indeg queue v
    simp only [DAG.decStep]
    rw [ih]
    by_cases hv : v = v0
    · subst hv
      rw [if_pos rfl, List.count_cons_self]
      push_cast
      omega
    · rw [if_neg hv, List.count_cons_of_ne hv]

/-- Invariant lemma for the inner decrement loop of Kahn's algorithm: the
queue stays duplicate-free relative to the emitted prefix `topo'`, every
enqueued node is a key with all of its in-edges inside `topo'`, and every
key whose in-degree has dropped to zero is recorded. -/
theorem decStep_inv (g : Graph) (hknd : (akeys g.adj).Nodup) (topo' : List Nat)
    (htn : topo'.Nodup) (hts : ∀ x ∈ topo', x ∈ akeys g.adj) :
    ∀ (nbrs : List Nat) (indeg : Nat → Int) (queue : List Nat),
      (∀ x ∈ nbrs, x ∈ akeys g.adj) →
      ((topo' ++ queue).Nodup) →
      (∀ x ∈ queue, x ∈ akeys g.adj) →
      (∀ v, indeg v = DAG.initInDegree g v - incoming g topo' v + (nbrs.count v : Int)) →
      (∀ v ∈ topo' ++ queue, incoming g topo' v = DAG.initInDegree g v) →
      (∀ v ∈ topo' ++ queue, v ∉ nbrs) →
      (∀ v ∈ akeys g.adj, indeg v ≤ 0 → v ∈ topo' ++ queue) →
      ((topo' ++ (DAG.decStep nbrs indeg queue).2).Nodup) ∧
      (∀ x ∈ (DAG.decStep nbrs indeg queue).2, x ∈ akeys g.adj) ∧
      (∀ v ∈ topo' ++ (DAG.decStep nbrs indeg queue).2,
        incoming g topo' v = DAG.initInDegree g v) ∧
      (∀ v ∈ akeys g.adj, (DAG.decStep nbrs indeg queue).1 v ≤ 0 →
        v ∈ topo' ++ (DAG.decStep nbrs indeg queue).2) := by
  intro nbrs
  induction nbrs with
  | nil =>
    intro indeg queue hnb hnd hq hind hqe hnbm hz
    refine ⟨hnd, hq, hqe, ?_⟩
    intro v hv hdeg
    replace hdeg : indeg v ≤ 0 := hdeg
    exact hz v hv hdeg
  | cons v0 rest ih =>
    intro indeg queue hnb hnd hq hind hqe hnbm hz
    simp only [DAG.decStep]
    have hv0k : v0 ∈ akeys g.adj := hnb v0 (List.mem_cons_self _ _)
    have hbound : incoming g topo' v0 ≤ DAG.initInDegree g v0 :=
      incoming_le_init g hknd htn hts v0
    have hd : indeg v0 - 1 =
        DAG.initInDegree g v0 - incoming g topo' v0 + (rest.count v0 : Int) := by
      have h1 := hind v0
      rw [List.count_cons_self] at h1
      push_cast at h1
      omega
    by_cases hd0 : indeg v0 - 1 = 0
    · rw [if_pos hd0]
      have hcnt0 : (rest.count v0 : Int) = 0 ∧
          incoming g topo' v0 = DAG.initInDegree g v0 := by
        constructor <;> [skip; skip] <;> omega
      have hrest0 : v0 ∉ rest := List.count_eq_zero.mp (by exact_mod_cast hcnt0.1)
      have hnew : v0 ∉ topo' ++ queue := fun hmem =>
        hnbm v0 hmem (List.mem_cons_self _ _)
      have hnd2 : (topo' ++ (queue ++ [v0])).Nodup := by
        rw [← List.append_assoc]
        rw [List.nodup_append]
        refine ⟨hnd, List.nodup_singleton _, ?_⟩
        intro x hx hx1
        rcases List.mem_singleton.mp hx1 with rfl
        exact hnew hx
      refine ih (fun x => if x = v0 then indeg v0 - 1 else indeg x) (queue ++ [v0])
        (fun x hx => hnb x (List.mem_cons_of_mem _ hx)) hnd2
        (fun x hx => by
          rcases List.mem_append.mp hx with hx' | hx'
          · exact hq x hx'
          · rcases List.mem_singleton.mp hx' with rfl; exact hv0k)
        ?_ ?_ ?_ ?_
      · intro v
        show (if v = v0 then indeg v0 - 1 else indeg v)
            = DAG.initInDegree g v - incoming g topo' v + (rest.count v : Int)
        by_cases hv : v = v0
        · subst hv
          rw [if_pos rfl]
          have hc0 : (rest.count v : Int) = 0 := hcnt0.1
          omega
        · rw [if_neg hv]
          have h1 := hind v
          rw [List.count_cons_of_ne hv] at h1
          exact h1
      · intro v hv
        rw [← List.append_assoc] at hv
        rcases List.mem_append.mp hv with hv' | hv'
        · exact hqe v hv'
        · rcases List.mem_singleton.mp hv' with rfl
          exact hcnt0.2
      · intro v hv
        rw [← List.append_assoc] at hv
        rcases List.mem_append.mp hv with hv' | hv'
        · exact fun hr => hnbm v hv' (List.mem_cons_of_mem _ hr)
        · rcases List.mem_singleton.mp hv' with rfl
          exact hrest0
      · intro v hv hdeg
        replace hdeg : (if v = v0 then indeg v0 - 1 else indeg v) ≤ 0 := hdeg
        by_cases hvv : v = v0
        · subst hvv
          rw [← List.append_assoc, List.mem_append]
          exact Or.inr (List.mem_singleton.mpr rfl)
        · rw [if_neg hvv] at hdeg
          have h1 := hz v hv hdeg
          rw [← List.append_assoc, List.mem_append]
          rcases List.mem_append.mp h1 with h2 | h2
          · exact Or.inl (List.mem_append.mpr (Or.inl h2))
          · exact Or.inl (List.mem_append.mpr (Or.inr h2))
    · rw [if_neg hd0]
      have hdpos : 0 < indeg v0 - 1 ∨ indeg v0 - 1 < 0 := by omega
      have hnonneg : 0 ≤ indeg v0 - 1 := by
        have h2 : (0 : Int) ≤ (rest.count v0 : Int) := Int.natCast_nonneg _
        omega
      refine ih (fun x => if x = v0 then indeg v0 - 1 else indeg x) queue
        (fun x hx => hnb x (List.mem_cons_of_mem _ hx)) hnd hq ?_ hqe ?_ ?_
      · intro v
        show (if v = v0 then indeg v0 - 1 else indeg v)
            = DAG.initInDegree g v - incoming g topo' v + (rest.count v : Int)
        by_cases hv : v = v0
        · subst hv
          rw [if_pos rfl]
          omega
        · rw [if_neg hv]
          have h1 := hind v
          rw [List.count_cons_of_ne hv] at h1
          exact h1
      · intro v hv
        exact fun hr => hnbm v hv (List.mem_cons_of_mem _ hr)
      · intro v hv hdeg
        replace hdeg : (if v = v0 then indeg v0 - 1 else indeg v) ≤ 0 := hdeg
        by_cases hvv : v = v0
        · subst hvv
          rw [if_pos rfl] at hdeg
          omega
        · rw [if_neg hvv] at hdeg
          exact hz v hv hdeg

theorem decStep_queue_sub : ∀ (nbrs : List Nat) (indeg : Nat → Int) (queue : List Nat),
    ∀ x ∈ queue, x ∈ (DAG.decStep nbrs indeg queue).2 := by
  intro nbrs
  induction nbrs with
  | nil => intro indeg queue x hx; exact hx
  | cons v0 rest ih =>
    intro indeg queue x hx
    simp only [DAG.decStep]
    by_cases hd0 : indeg v0 - 1 = 0
    · rw [if_pos hd0]
      exact ih _ _ x (List.mem_append.mpr (Or.inl hx))
    · rw [if_neg hd0]
      exact ih _ _ x hx

theorem append_singleton_decomp {l : List Nat} {u : Nat} {p : List Nat} {v : Nat}
    {q : List Nat} (h : l ++ [u] = p ++ v :: q) :
    (∃ q', l = p ++ v :: q' ∧ q = q' ++ [u]) ∨ (p = l ∧ v = u ∧ q = []) := by
  rcases List.eq_nil_or_concat q with rfl | ⟨q', a, rfl⟩
  · right
    have h1 := List.append_inj' h (by rfl)
    refine ⟨h1.1.symm, ?_, rfl⟩
    injection h1.2 with h2 _
    exact h2.symm
  · left
    rw [List.concat_eq_append, show p ++ v :: (q' ++ [a]) = (p ++ v :: q') ++ [a] by
      simp] at h
    have h1 := List.append_inj' h (by rfl)
    injection h1.2 with h2 _
    refine ⟨q', h1.1, ?_⟩
    rw [List.concat_eq_append, h2]

/-- If every member of a nonempty set of nodes has an in-neighbor in the
set, the graph has a cycle. -/
theorem cycle_of_all_pred {g : Graph} {S : List Nat} {v0 : Nat} (hv0 : v0 ∈ S)
    (hpred : ∀ v ∈ S, ∃ a, a ∈ S ∧ Adj g a v) : ∃ c, Reaches1 g c c := by
  classical
  have hF : ∀ v : Nat, ∃ a, v ∈ S → (a ∈ S ∧ Adj g a v) := by
    intro v
    by_cases hv : v ∈ S
    · obtain ⟨a, ha⟩ := hpred v hv
      exact ⟨a, fun _ => ha⟩
    · exact ⟨v0, fun hc => absurd hc hv⟩
  choose F hFspec using hF
  have hseqS : ∀ n : Nat, F^[n] v0 ∈ S := by
    intro n
    induction n with
    | zero => exact hv0
    | succ n ih =>
      rw [Function.iterate_succ_apply']
      exact (hFspec _ ih).1
  have hseqAdj : ∀ n : Nat, Adj g (F^[n + 1] v0) (F^[n] v0) := by
    intro n
    rw [Function.iterate_succ_apply']
    exact (hFspec _ (hseqS n)).2
  have hreach : ∀ i k : Nat, Reaches1 g (F^[i + k + 1] v0) (F^[i] v0) := by
    intro i k
    induction k with
    | zero => exact Relation.TransGen.single (hseqAdj i)
    | succ k ih =>
      have hadj := hseqAdj (i + k + 1)
      exact Relation.TransGen.head (show Adj g (F^[i + (k + 1) + 1] v0) (F^[i + k + 1] v0) by
        rw [show i + (k + 1) + 1 = (i + k + 1) + 1 by omega]
        exact hadj) ih
  have hmaps : ∀ n ∈ Finset.range (S.length + 1), F^[n] v0 ∈ S.toFinset := by
    intro n _
    exact List.mem_toFinset.mpr (hseqS n)
  have hcard : S.toFinset.card < (Finset.range (S.length + 1)).card := by
    rw [Finset.card_range]
    have := S.toFinset_card_le
    omega
  obtain ⟨i, hi, j, hj, hij, heq⟩ :=
    Finset.exists_ne_map_eq_of_card_lt_of_maps_to hcard hmaps
  rcases lt_or_gt_of_ne hij with hlt | hlt
  · refine ⟨F^[j] v0, ?_⟩
    have h1 := hreach i (j - i - 1)
    rw [show i + (j - i - 1) + 1 = j by omega, heq] at h1
    exact h1
  · refine ⟨F^[i] v0, ?_⟩
    have h1 := hreach j (i - j - 1)
    rw [show j + (i - j - 1) + 1 = i by omega, ← heq] at h1
    exact h1

/-- Main invariant lemma for the `while queue:` loop of Kahn's algorithm. -/
theorem kahnLoop_main (g : Graph) (hknd : (akeys g.adj).Nodup)
    (hclosed : ∀ p ∈ g.adj, ∀ v ∈ p.2, v ∈ akeys g.adj) :
    ∀ (fuel : Nat) (queue : List Nat) (indeg : Nat → Int) (topo : List Nat),
      (akeys g.adj).length + 1 ≤ fuel + topo.length →
      ((topo ++ queue).Nodup) →
      (∀ x ∈ topo ++ queue, x ∈ akeys g.adj) →
      (∀ v, indeg v = DAG.initInDegree g v - incoming g topo v) →
      (∀ v ∈ topo ++ queue, incoming g topo v = DAG.initInDegree g v) →
      (∀ v ∈ akeys g.adj, indeg v ≤ 0 → v ∈ topo ++ queue) →
      (∀ p v q, topo = p ++ v :: q → ∀ a, Adj g a v → a ∈ p) →
      ∃ topoF, DAG.kahnLoop g fuel queue indeg topo = some topoF ∧
        topoF.Nodup ∧ (∀ x ∈ topoF, x ∈ akeys g.adj) ∧
        (∀ x ∈ topo, x ∈ topoF) ∧
        (∀ p v q, topoF = p ++ v :: q → ∀ a, Adj g a v → a ∈ p) ∧
        (∀ v ∈ akeys g.adj, v ∉ topoF → ∃ a, a ∈ akeys g.adj ∧ a ∉ topoF ∧ Adj g a v) := by
  intro fuel
  induction fuel with
  | zero =>
    intro queue indeg topo hfuel hnd hsub _ _ _ _
    exfalso
    have htn : topo.Nodup := (List.nodup_append.mp hnd).1
    have hts : topo ⊆ akeys g.adj := fun x hx => hsub x (List.mem_append.mpr (Or.inl hx))
    have hlen := (List.subperm_of_subset htn hts).length_le
    omega
  | succ fuel ih =>
    intro queue indeg topo hfuel hnd hsub hind hqe hz hval
    cases queue with
    | nil =>
      refine ⟨topo, by simp [DAG.kahnLoop], (by simpa using hnd), ?_, fun x hx => hx, hval, ?_⟩
      · intro x hx
        exact hsub x (by simpa using hx)
      · intro v hvk hvt
        have hpos : ¬ indeg v ≤ 0 := fun hle => hvt (by simpa using hz v hvk hle)
        have hlt : incoming g topo v < DAG.initInDegree g v := by
          have h1 := hind v
          omega
        obtain ⟨a, haK, hat, hadj⟩ := incoming_gap_witness g hknd
          (by simpa using hnd) (fun x hx => hsub x (by simpa using hx)) hlt
        exact ⟨a, haK, hat, hadj⟩
    | cons u qrest =>
      have huk : u ∈ akeys g.adj :=
        hsub u (List.mem_append.mpr (Or.inr (List.mem_cons_self _ _)))
      have hunotopo : u ∉ topo := by
        intro hu
        rcases List.nodup_append.mp hnd with ⟨-, -, hdisj⟩
        exact hdisj hu (List.mem_cons_self _ _)
      have htn : topo.Nodup := (List.nodup_append.mp hnd).1
      have hts : ∀ x ∈ topo, x ∈ akeys g.adj :=
        fun x hx => hsub x (List.mem_append.mpr (Or.inl hx))
      have htn' : (topo ++ [u]).Nodup := by
        rw [List.nodup_append]
        refine ⟨htn, List.nodup_singleton _, ?_⟩
        intro x hx hx1
        rcases List.mem_singleton.mp hx1 with rfl
        exact hunotopo hx
      have hts' : ∀ x ∈ topo ++ [u], x ∈ akeys g.adj := by
        intro x hx
        rcases List.mem_append.mp hx with hx' | hx'
        · exact hts x hx'
        · rcases List.mem_singleton.mp hx' with rfl; exact huk
      -- every node already enqueued keeps all of its in-edges inside `topo ++ [u]`
      have hstab : ∀ v ∈ topo ++ u :: qrest,
          incoming g (topo ++ [u]) v = DAG.initInDegree g v ∧
          v ∉ SortableDigraph.successors g u := by
        intro v hv
        have h1 : incoming g topo v = DAG.initInDegree g v := hqe v hv
        have h2 : incoming g (topo ++ [u]) v ≤ DAG.initInDegree g v :=
          incoming_le_init g hknd htn' hts' v
        rw [incoming_append, incoming_singleton, h1] at h2
        have h3 : (0 : Int) ≤ ((SortableDigraph.successors g u).count v : Int) :=
          Int.natCast_nonneg _
        have h4 : ((SortableDigraph.successors g u).count v : Int) = 0 := by omega
        have h5 : (SortableDigraph.successors g u).count v = 0 := by exact_mod_cast h4
        refine ⟨?_, List.count_eq_zero.mp h5⟩
        rw [incoming_append, incoming_singleton, h1, h4]
        omega
      -- validity of the next emitted node
      have hvalu : ∀ a, Adj g a u → a ∈ topo := by
        intro a hadj
        by_contra hatopo
        have hank : a ∈ akeys g.adj := adj_src_mem_keys hadj
        have htan : (topo ++ [a]).Nodup := by
          rw [List.nodup_append]
          refine ⟨htn, List.nodup_singleton _, ?_⟩
          intro x hx hx1
          rcases List.mem_singleton.mp hx1 with rfl
          exact hatopo hx
        have htas : ∀ x ∈ topo ++ [a], x ∈ akeys g.adj := by
          intro x hx
          rcases List.mem_append.mp hx with hx' | hx'
          · exact hts x hx'
          · rcases List.mem_singleton.mp hx' with rfl; exact hank
        have hle := incoming_le_init g hknd htan htas u
        rw [incoming_append, incoming_singleton,
          hqe u (List.mem_append.mpr (Or.inr (List.mem_cons_self _ _)))] at hle
        have hcpos : 0 < (SortableDigraph.successors g a).count u :=
          List.count_pos_iff.mpr hadj
        have : (0 : Int) < ((SortableDigraph.successors g a).count u : Int) := by
          exact_mod_cast hcpos
        omega
      -- apply the inner-loop lemma
      have hdec := decStep_inv g hknd (topo ++ [u]) htn' hts'
        (SortableDigraph.successors g u) indeg qrest
        (succs_subset_keys hclosed u)
        (by
          have : topo ++ [u] ++ qrest = topo ++ u :: qrest := by simp
          rw [this]
          exact hnd)
        (fun x hx => hsub x (List.mem_append.mpr (Or.inr (List.mem_cons_of_mem _ hx))))
        (by
          intro v
          rw [incoming_append, incoming_singleton]
          have h1 := hind v
          omega)
        (by
          intro v hv
          have hv' : v ∈ topo ++ u :: qrest := by
            rcases List.mem_append.mp hv with hv' | hv'
            · rcases List.mem_append.mp hv' with hv'' | hv''
              · exact List.mem_append.mpr (Or.inl hv'')
              · rcases List.mem_singleton.mp hv'' with rfl
                exact List.mem_append.mpr (Or.inr (List.mem_cons_self _ _))
            · exact List.mem_append.mpr (Or.inr (List.mem_cons_of_mem _ hv'))
          exact (hstab v hv').1)
        (by
          intro v hv
          have hv' : v ∈ topo ++ u :: qrest := by
            rcases List.mem_append.mp hv with hv' | hv'
            · rcases List.mem_append.mp hv' with hv'' | hv''
              · exact List.mem_append.mpr (Or.inl hv'')
              · rcases List.mem_singleton.mp hv'' with rfl
                exact List.mem_append.mpr (Or.inr (List.mem_cons_self _ _))
            · exact List.mem_append.mpr (Or.inr (List.mem_cons_of_mem _ hv'))
          exact (hstab v hv').2)
        (by
          intro v hv hdeg
          have h1 := hz v hv hdeg
          rcases List.mem_append.mp h1 with h2 | h2
          · exact List.mem_append.mpr (Or.inl (List.mem_append.mpr (Or.inl h2)))
          · rcases List.mem_cons.mp h2 with rfl | h3
            · exact List.mem_append.mpr (Or.inl (List.mem_append.mpr
                (Or.inr (List.mem_singleton.mpr rfl))))
            · exact List.mem_append.mpr (Or.inr h3))
      obtain ⟨hnd2, hq2, hqe2, hz2⟩ := hdec
      -- the new in-degree table matches the extended prefix
      have hind2 : ∀ v, (DAG.decStep (SortableDigraph.successors g u) indeg qrest).1 v
          = DAG.initInDegree g v - incoming g (topo ++ [u]) v := by
        intro v
        rw [decStep_indeg, incoming_append, incoming_singleton]
        have h1 := hind v
        omega
      -- validity for the extended prefix
      have hval2 : ∀ p v q, topo ++ [u] = p ++ v :: q → ∀ a, Adj g a v → a ∈ p := by
        intro p v q heq a hadj
        rcases append_singleton_decomp heq with ⟨q', heq', -⟩ | ⟨rfl, rfl, rfl⟩
        · exact hval p v q' heq' a hadj
        · exact hvalu a hadj
      have hrec := ih (DAG.decStep (SortableDigraph.successors g u) indeg qrest).2
        (DAG.decStep (SortableDigraph.successors g u) indeg qrest).1 (topo ++ [u])
        (by
          rw [List.length_append, List.length_singleton]
          omega)
        hnd2
        (by
          intro x hx
          rcases List.mem_append.mp hx with hx' | hx'
          · exact hts' x hx'
          · exact hq2 x hx')
        hind2 hqe2 hz2 hval2
      obtain ⟨topoF, hloop, hfnd, hfsub, hfpre, hfval, hflast⟩ := hrec
      refine ⟨topoF, ?_, hfnd, hfsub, ?_, hfval, hflast⟩
      · show DAG.kahnLoop g (fuel + 1) (u :: qrest) indeg topo = some topoF
        simp only [DAG.kahnLoop]
        exact hloop
      · intro x hx
        exact hfpre x (List.mem_append.mpr (Or.inl hx))

theorem before_indexOf {l : List Nat} (hnd : l.Nodup) {u v : Nat} (h : Before l u v) :
    l.indexOf u < l.indexOf v := by
  obtain ⟨p, q, rfl, hu⟩ := h
  have hvp : v ∉ p := by
    rcases List.nodup_append.mp hnd with ⟨-, -, hdisj⟩
    intro hv
    exact hdisj hv (List.mem_cons_self _ _)
  rw [List.indexOf_append_of_mem hu, List.indexOf_append_of_not_mem hvp,
    List.indexOf_cons_self]
  have h1 := List.indexOf_lt_length.mpr hu
  omega

/-- Running the Kahn loop inside `top_sort` from its initial state. -/
theorem top_sort_run (g : Graph) (hwf : WF g) :
    ∃ topoF, DAG.kahnLoop g (g.adj.length + 1)
        ((akeys g.adj).filter (fun u => DAG.initInDegree g u == 0))
        (DAG.initInDegree g) [] = some topoF ∧
      topoF.Nodup ∧ (∀ x ∈ topoF, x ∈ akeys g.adj) ∧
      (∀ p v q, topoF = p ++ v :: q → ∀ a, Adj g a v → a ∈ p) ∧
      (∀ v ∈ akeys g.adj, v ∉ topoF → ∃ a, a ∈ akeys g.adj ∧ a ∉ topoF ∧ Adj g a v) := by
  have hknd := hwf.1
  have hclosed := hwf.2.2.2.1
  have hrun := kahnLoop_main g hknd hclosed (g.adj.length + 1)
    ((akeys g.adj).filter (fun u => DAG.initInDegree g u == 0)) (DAG.initInDegree g) []
    (by
      have h1 : (akeys g.adj).length = g.adj.length := List.length_map _ _
      simp only [List.length_nil]
      omega)
    (by
      simp only [List.nil_append]
      exact List.Nodup.filter _ hknd)
    (by
      intro x hx
      simp only [List.nil_append] at hx
      exact (List.mem_filter.mp hx).1)
    (by
      intro v
      rw [incoming_nil]
      omega)
    (by
      intro v hv
      simp only [List.nil_append] at hv
      have h1 := (List.mem_filter.mp hv).2
      have h2 : DAG.initInDegree g v = 0 := by
        simpa using h1
      rw [incoming_nil, h2])
    (by
      intro v hv hle
      have h1 : (0 : Int) ≤ DAG.initInDegree g v := Int.natCast_nonneg _
      have h2 : DAG.initInDegree g v = 0 := le_antisymm hle h1
      simp only [List.nil_append]
      refine List.mem_filter.mpr ⟨hv, ?_⟩
      simp [h2])
    (by
      intro p v q heq a _
      exfalso
      cases p <;> simp at heq)
  obtain ⟨topoF, hloop, hfnd, hfsub, -, hfval, hflast⟩ := hrun
  exact ⟨topoF, hloop, hfnd, hfsub, hfval, hflast⟩

/-- When `top_sort` returns an order, it is a permutation of the node list
respecting every edge. -/
theorem top_sort_ok_spec (g : Graph) (hwf : WF g) (l : List Nat)
    (h : DAG.top_sort g = Except.ok l) :
    l.Perm (akeys g.adj) ∧ (∀ u v, Adj g u v → Before l u v) := by
  obtain ⟨topoF, hrun, hfnd, hfsub, hfval, -⟩ := top_sort_run g hwf
  simp only [DAG.top_sort] at h
  rw [hrun] at h
  replace h : (if topoF.length = g.adj.length then Except.ok topoF
      else Except.error "Graph has at least one cycle; cannot topologically sort.")
      = Except.ok l := h
  by_cases hlen : topoF.length = g.adj.length
  · rw [if_pos hlen] at h
    injection h with h
    subst h
    have hperm : topoF.Perm (akeys g.adj) := by
      refine (List.subperm_of_subset hfnd hfsub).perm_of_length_le ?_
      have hkl : (akeys g.adj).length = g.adj.length := List.length_map _ _
      omega
    refine ⟨hperm, ?_⟩
    intro u v hadj
    have hvk : v ∈ akeys g.adj :=
      succs_subset_keys hwf.2.2.2.1 u v hadj
    have hvl : v ∈ topoF := hperm.mem_iff.mpr hvk
    obtain ⟨p, q, heq⟩ := List.append_of_mem hvl
    exact ⟨p, q, heq, hfval p v q heq u hadj⟩
  · rw [if_neg hlen] at h
    cases h

/-- `top_sort` succeeds exactly on acyclic graph states. -/
theorem top_sort_ok_iff (g : Graph) (hwf : WF g) :
    (∃ l, DAG.top_sort g = Except.ok l) ↔ Acyclic g := by
  constructor
  · rintro ⟨l, hok⟩ n hn
    obtain ⟨hperm, hval⟩ := top_sort_ok_spec g hwf l hok
    have hnd : l.Nodup := hperm.nodup_iff.mpr hwf.1
    have hmono : ∀ a b, Adj g a b → l.indexOf a < l.indexOf b :=
      fun a b hab => before_indexOf hnd (hval a b hab)
    have hrk : ∀ a b, Reaches1 g a b → l.indexOf a < l.indexOf b := by
      intro a b hr
      induction hr with
      | single h => exact hmono _ _ h
      | tail _ h ih => exact lt_trans ih (hmono _ _ h)
    exact absurd (hrk n n hn) (lt_irrefl _)
  · intro hac
    obtain ⟨topoF, hrun, hfnd, hfsub, -, hflast⟩ := top_sort_run g hwf
    have hall : ∀ v ∈ akeys g.adj, v ∈ topoF := by
      by_contra hno
      push_neg at hno
      obtain ⟨v, hvk, hvt⟩ := hno
      have hvS : v ∈ (akeys g.adj).filter (fun x => decide (x ∉ topoF)) :=
        List.mem_filter.mpr ⟨hvk, by simpa using hvt⟩
      have hpred : ∀ x ∈ (akeys g.adj).filter (fun x => decide (x ∉ topoF)),
          ∃ a, a ∈ (akeys g.adj).filter (fun x => decide (x ∉ topoF)) ∧ Adj g a x := by
        intro x hx
        have hx1 := List.mem_filter.mp hx
        obtain ⟨a, haK, hat, hadj⟩ := hflast x hx1.1 (by simpa using hx1.2)
        exact ⟨a, List.mem_filter.mpr ⟨haK, by simpa using hat⟩, hadj⟩
      obtain ⟨c, hc⟩ := cycle_of_all_pred hvS hpred
      exact hac c hc
    have hlen : topoF.length = g.adj.length := by
      have l1 := (List.subperm_of_subset hfnd hfsub).length_le
      have l2 := (List.subperm_of_subset hwf.1 hall).length_le
      have l3 : (akeys g.adj).length = g.adj.length := List.length_map _ _
      omega
    refine ⟨topoF, ?_⟩
    simp only [DAG.top_sort]
    rw [hrun]
    show (if topoF.length = g.adj.length then Except.ok topoF
        else Except.error "Graph has at least one cycle; cannot topologically sort.")
        = Except.ok topoF
    rw [if_pos hlen]

/-- `top_sort` raises exactly on cyclic graph states. -/
theorem top_sort_error_iff (g : Graph) (hwf : WF g) :
    (∃ e, DAG.top_sort g = Except.error e) ↔ ¬ Acyclic g := by
  rw [← top_sort_ok_iff g hwf]
  constructor
  · rintro ⟨e, he⟩ ⟨l, hl⟩
    rw [he] at hl
    cases hl
  · intro hno
    cases h : DAG.top_sort g with
    | ok l => exact absurd ⟨l, h⟩ hno
    | error e => exact ⟨e, rfl⟩

/-- The DFS-coloring detector and the Kahn-based detector agree. -/
theorem detect_iff_top_sort_error (g : Graph) (hwf : WF g) :
    DAG.detect_cycle g = true ↔ ∃ e, DAG.top_sort g = Except.error e := by
  rw [top_sort_error_iff g hwf, DAG.detect_cycle_eq_true_iff]
  constructor
  · rintro ⟨c, hc⟩ hac
    exact hac c hc
  · intro hno
    by_contra hnc
    push_neg at hnc
    exact hno (fun n hn => hnc n hn)

end KahnLemmas

section TraversalLemmas

open SortableDigraph TraversableDigraph

theorem bfsStep_facts : ∀ (nbrs visited result queue : List Nat),
    result.Nodup → (∀ x, x ∈ result ↔ x ∈ visited) →
    ((bfsStep visited result queue nbrs).2.1.Nodup) ∧
    (∀ x, x ∈ (bfsStep visited result queue nbrs).2.1 ↔
      x ∈ (bfsStep visited result queue nbrs).1) ∧
    (∀ x, x ∈ (bfsStep visited result queue nbrs).1 ↔ x ∈ visited ∨ x ∈ nbrs) ∧
    (∀ x, x ∈ (bfsStep visited result queue nbrs).2.2 ↔
      x ∈ queue ∨ (x ∈ nbrs ∧ x ∉ visited)) := by
  intro nbrs
  induction nbrs with
  | nil =>
    intro visited result queue hnd hiff
    refine ⟨hnd, hiff, ?_, ?_⟩ <;> intro x <;> simp [bfsStep]
  | cons nb rest ih =>
    intro visited result queue hnd hiff
    simp only [bfsStep]
    by_cases h1 : nb ∈ visited
    · rw [if_pos h1]
      obtain ⟨c1, c2, c3, c4⟩ := ih visited result queue hnd hiff
      refine ⟨c1, c2, ?_, ?_⟩
      · intro x
        rw [c3, List.mem_cons]
        constructor
        · rintro (h | h)
          · exact Or.inl h
          · exact Or.inr (Or.inr h)
        · rintro (h | rfl | h)
          · exact Or.inl h
          · exact Or.inl h1
          · exact Or.inr h
      · intro x
        rw [c4, List.mem_cons]
        constructor
        · rintro (h | h)
          · exact Or.inl h
          · exact Or.inr ⟨Or.inr h.1, h.2⟩
        · rintro (h | ⟨rfl | hx, hnv⟩)
          · exact Or.inl h
          · exact absurd h1 hnv
          · exact Or.inr ⟨hx, hnv⟩
    · rw [if_neg h1]
      have hndr : (result ++ [nb]).Nodup := by
        rw [List.nodup_append]
        refine ⟨hnd, List.nodup_singleton _, ?_⟩
        intro x hx hx1
        rcases List.mem_singleton.mp hx1 with rfl
        exact h1 ((hiff x).mp hx)
      have hiffr : ∀ x, x ∈ result ++ [nb] ↔ x ∈ setAdd nb visited := by
        intro x
        rw [List.mem_append, List.mem_singleton, mem_setAdd_iff, hiff]
        tauto
      obtain ⟨c1, c2, c3, c4⟩ := ih (setAdd nb visited) (result ++ [nb]) (queue ++ [nb])
        hndr hiffr
      refine ⟨c1, c2, ?_, ?_⟩
      · intro x
        rw [c3, mem_setAdd_iff, List.mem_cons]
        tauto
      · intro x
        rw [c4, List.mem_append, List.mem_singleton, List.mem_cons]
        constructor
        · rintro ((h | rfl) | ⟨hx, hnv⟩)
          · exact Or.inl h
          · exact Or.inr ⟨Or.inl rfl, h1⟩
          · refine Or.inr ⟨Or.inr hx, ?_⟩
            intro hv
            exact hnv (mem_setAdd_of_mem hv)
        · rintro (h | ⟨rfl | hx, hnv⟩)
          · exact Or.inl (Or.inl h)
          · exact Or.inl (Or.inr rfl)
          · by_cases hxnb : x = nb
            · exact Or.inl (Or.inr hxnb)
            · refine Or.inr ⟨hx, ?_⟩
              rw [setAdd_eq_cons h1, List.mem_cons]
              rintro (h | h)
              · exact hxnb h
              · exact hnv h

theorem bfsStep_measure (g : Graph) : ∀ (nbrs visited result queue : List Nat),
    (∀ x ∈ nbrs, x ∈ nodesOf g) →
    (bfsStep visited result queue nbrs).2.2.length +
      DAG.mUnv g (bfsStep visited result queue nbrs).1 ≤
    queue.length + DAG.mUnv g visited := by
  intro nbrs
  induction nbrs with
  | nil => intro visited result queue _; exact le_refl _
  | cons nb rest ih =>
    intro visited result queue hnb
    simp only [bfsStep]
    by_cases h1 : nb ∈ visited
    · rw [if_pos h1]
      exact ih visited result queue (fun x hx => hnb x (List.mem_cons_of_mem _ hx))
    · rw [if_neg h1]
      have h2 := ih (setAdd nb visited) (result ++ [nb]) (queue ++ [nb])
        (fun x hx => hnb x (List.mem_cons_of_mem _ hx))
      have h3 := DAG.mUnv_setAdd g (hnb nb (List.mem_cons_self _ _)) h1
      have h4 : (queue ++ [nb]).length = queue.length + 1 := by
        rw [List.length_append, List.length_singleton]
      omega

theorem bfsAux_isSome (g : Graph) : ∀ (fuel : Nat) (queue visited result : List Nat),
    queue.length + DAG.mUnv g visited < fuel →
    (bfsAux g fuel queue visited result).isSome = true := by
  intro fuel
  induction fuel with
  | zero => intro queue visited result h; omega
  | succ fuel ih =>
    intro queue visited result h
    cases queue with
    | nil => simp [bfsAux]
    | cons node qrest =>
      simp only [bfsAux]
      refine ih _ _ _ ?_
      have h1 := bfsStep_measure g (successors g node) visited result qrest
        (successors_subset_nodesOf g node)
      have h2 : (node :: qrest).length = qrest.length + 1 := rfl
      omega

theorem bfsAux_main (g : Graph) (start : Nat) : ∀ (fuel : Nat)
    (queue visited result : List Nat) (res : List Nat),
    bfsAux g fuel queue visited result = some res →
    result.Nodup → (∀ x, x ∈ result ↔ x ∈ visited) →
    (∀ x ∈ visited, Reaches1 g start x) →
    (∀ x ∈ queue, x = start ∨ x ∈ visited) →
    (∀ x, (x = start ∨ x ∈ visited) → x ∈ queue ∨ (∀ y ∈ successors g x, y ∈ visited)) →
    ∃ Vf : List Nat, res.Nodup ∧ (∀ x, x ∈ res ↔ x ∈ Vf) ∧
      (∀ x ∈ Vf, Reaches1 g start x) ∧
      (∀ x, (x = start ∨ x ∈ Vf) → ∀ y ∈ successors g x, y ∈ Vf) := by
  intro fuel
  induction fuel with
  | zero => intro queue visited result res h; simp [bfsAux] at h
  | succ fuel ih =>
    intro queue visited result res h hnd hiff hreach hqstat hclose
    cases queue with
    | nil =>
      simp only [bfsAux, Option.some.injEq] at h
      subst h
      refine ⟨visited, hnd, hiff, hreach, ?_⟩
      intro x hx y hy
      rcases hclose x hx with hc | hc
      · cases hc
      · exact hc y hy
    | cons node qrest =>
      simp only [bfsAux] at h
      obtain ⟨c1, c2, c3, c4⟩ :=
        bfsStep_facts (successors g node) visited result qrest hnd hiff
      have hnodestat : node = start ∨ node ∈ visited :=
        hqstat node (List.mem_cons_self _ _)
      have hnodereach : ∀ y, Adj g node y → Reaches1 g start y := by
        intro y hy
        rcases hnodestat with rfl | hv
        · exact Relation.TransGen.single hy
        · exact Relation.TransGen.tail (hreach node hv) hy
      refine ih _ _ _ res h c1 c2 ?_ ?_ ?_
      · intro x hx
        rcases (c3 x).mp hx with hx' | hx'
        · exact hreach x hx'
        · exact hnodereach x hx'
      · intro x hx
        rcases (c4 x).mp hx with hx' | hx'
        · rcases hqstat x (List.mem_cons_of_mem _ hx') with h2 | h2
          · exact Or.inl h2
          · exact Or.inr ((c3 x).mpr (Or.inl h2))
        · exact Or.inr ((c3 x).mpr (Or.inr hx'.1))
      · intro x hx
        have hx0 : x = start ∨ x ∈ visited ∨ x ∈ successors g node := by
          rcases hx with rfl | hx'
          · exact Or.inl rfl
          · rcases (c3 x).mp hx' with h2 | h2
            · exact Or.inr (Or.inl h2)
            · exact Or.inr (Or.inr h2)
        by_cases hxv : x ∈ visited ∨ x = start
        · have hold := hclose x (by tauto)
          rcases hold with h2 | h2
          · rcases List.mem_cons.mp h2 with rfl | h3
            · refine Or.inr ?_
              intro y hy
              exact (c3 y).mpr (Or.inr hy)
            · exact Or.inl ((c4 x).mpr (Or.inl h3))
          · refine Or.inr ?_
            intro y hy
            exact (c3 y).mpr (Or.inl (h2 y hy))
        · push_neg at hxv
          have hxs : x ∈ successors g node ∧ x ∉ visited := by
            rcases hx0 with h2 | h2 | h2
            · exact absurd h2 hxv.2
            · exact absurd h2 hxv.1
            · exact ⟨h2, hxv.1⟩
          exact Or.inl ((c4 x).mpr (Or.inr hxs))

/-- `bfs` emits exactly the nodes reachable from `start` by a nonempty path,
each exactly once. -/
theorem bfs_spec (g : Graph) (start : Nat) :
    (bfs g start).Nodup ∧ (∀ x, x ∈ bfs g start ↔ Reaches1 g start x) := by
  have hsome := bfsAux_isSome g (travFuel g) [start] [] []
    (by
      have h1 := DAG.mUnv_le g []
      unfold travFuel
      simp only [List.length_singleton]
      omega)
  obtain ⟨res, hres⟩ := Option.isSome_iff_exists.mp hsome
  have hbfs : bfs g start = res := by
    unfold bfs
    rw [hres]
    rfl
  obtain ⟨Vf, hnd, hiff, hreach, hclose⟩ := bfsAux_main g start (travFuel g)
    [start] [] [] res hres List.nodup_nil (by simp)
    (by intro x hx; cases hx)
    (by intro x hx; exact Or.inl (List.mem_singleton.mp hx))
    (by
      intro x hx
      rcases hx with rfl | hx
      · exact Or.inl (List.mem_singleton.mpr rfl)
      · cases hx)
  rw [hbfs]
  refine ⟨hnd, ?_⟩
  intro x
  rw [hiff]
  constructor
  · exact hreach x
  · intro hr
    obtain ⟨y, hy, hyr⟩ := DAG.transGen_head_decomp hr
    have hyVf : y ∈ Vf := hclose start (Or.inl rfl) y hy
    clear hy hr
    induction hyr with
    | refl => exact hyVf
    | tail _ step ih2 => exact hclose _ (Or.inr ih2) _ step

theorem dfsStep_grow
    (dfsN : Nat → List Nat → List Nat → Option (List Nat × List Nat))
    (hNg : ∀ n V R s, dfsN n V R = some s → ∀ x ∈ V, x ∈ s.1) :
    ∀ nbrs V R s, dfsStep dfsN nbrs V R = some s → ∀ x ∈ V, x ∈ s.1 := by
  intro nbrs
  induction nbrs with
  | nil =>
    intro V R s h x hx
    simp only [dfsStep, Option.some.injEq] at h
    rw [← h]
    exact hx
  | cons nb rest ih =>
    intro V R s h x hx
    simp only [dfsStep] at h
    by_cases h1 : nb ∈ V
    · rw [if_pos h1] at h
      exact ih V R s h x hx
    · rw [if_neg h1] at h
      cases hN : dfsN nb (setAdd nb V) (R ++ [nb]) with
      | none => rw [hN] at h; cases h
      | some s2 =>
        rw [hN] at h
        have h2 := hNg nb (setAdd nb V) (R ++ [nb]) s2 hN
        exact ih s2.1 s2.2 s h x (h2 x (mem_setAdd_of_mem hx))

theorem dfsVisit_grow (g : Graph) : ∀ fuel node V R s,
    dfsVisit g fuel node V R = some s → ∀ x ∈ V, x ∈ s.1 := by
  intro fuel
  induction fuel with
  | zero => intro node V R s h; simp [dfsVisit] at h
  | succ fuel ih =>
    intro node V R s h
    simp only [dfsVisit] at h
    exact fun x hx => dfsStep_grow (dfsVisit g fuel) (ih) _ _ _ _ h x hx

theorem dfsStep_isSome (g : Graph) (m : Nat)
    (dfsN : Nat → List Nat → List Nat → Option (List Nat × List Nat))
    (hg : ∀ n V R s, dfsN n V R = some s → ∀ x ∈ V, x ∈ s.1)
    (hs : ∀ n V R, n ∈ nodesOf g → n ∉ V → DAG.mUnv g V ≤ m →
      (dfsN n (setAdd n V) R).isSome = true) :
    ∀ nbrs V R, (∀ x ∈ nbrs, x ∈ nodesOf g) → DAG.mUnv g V ≤ m →
    (dfsStep dfsN nbrs V R).isSome = true := by
  intro nbrs
  induction nbrs with
  | nil => intro V R _ _; simp [dfsStep]
  | cons nb rest ih =>
    intro V R hnb hm
    simp only [dfsStep]
    by_cases h1 : nb ∈ V
    · rw [if_pos h1]
      exact ih V R (fun x hx => hnb x (List.mem_cons_of_mem _ hx)) hm
    · rw [if_neg h1]
      have hsome := hs nb V (R ++ [nb]) (hnb nb (List.mem_cons_self _ _)) h1 hm
      cases hN : dfsN nb (setAdd nb V) (R ++ [nb]) with
      | none => rw [hN] at hsome; cases hsome
      | some s2 =>
        have hsub : ∀ x ∈ setAdd nb V, x ∈ s2.1 := hg nb _ _ s2 hN
        have hm2 : DAG.mUnv g s2.1 ≤ m := by
          have h2 : DAG.mUnv g s2.1 ≤ DAG.mUnv g (setAdd nb V) := DAG.mUnv_mono g hsub
          have h3 := DAG.mUnv_setAdd g (hnb nb (List.mem_cons_self _ _)) h1
          omega
        exact ih s2.1 s2.2 (fun x hx => hnb x (List.mem_cons_of_mem _ hx)) hm2

theorem dfsVisit_isSome (g : Graph) : ∀ fuel node V R,
    DAG.mUnv g V < fuel →
    (dfsVisit g fuel node V R).isSome = true := by
  intro fuel
  induction fuel with
  | zero => intro node V R hm; omega
  | succ fuel ih =>
    intro node V R hm
    simp only [dfsVisit]
    exact dfsStep_isSome g fuel (dfsVisit g fuel)
      (fun n V' R' s' hh => dfsVisit_grow g fuel n V' R' s' hh)
      (fun n V' R' hn' hv' hm' => by
        refine ih n (setAdd n V') R' ?_
        have h3 := DAG.mUnv_setAdd g hn' hv'
        omega)
      (SortableDigraph.successors g node) V R
      (successors_subset_nodesOf g node) (by omega)

/-- Joint invariant lemma for the neighbor loop of `dfs_visit`: the result
list mirrors the visited set, every processed neighbor ends up visited,
every newly visited node has all successors visited, and every visited node
is reachable from `start` by a nonempty path. -/
theorem dfsStep_main (g : Graph) (start : Nat)
    (dfsN : Nat → List Nat → List Nat → Option (List Nat × List Nat))
    (hNgrow : ∀ n V R s, dfsN n V R = some s → ∀ x ∈ V, x ∈ s.1)
    (hN : ∀ node V R s, dfsN node V R = some s →
      R.Nodup → (∀ x, x ∈ R ↔ x ∈ V) →
      (node = start ∨ Reaches1 g start node) →
      (∀ x ∈ V, Reaches1 g start x) →
      s.2.Nodup ∧ (∀ x, x ∈ s.2 ↔ x ∈ s.1) ∧
      (∀ y ∈ successors g node, y ∈ s.1) ∧
      (∀ x ∈ s.1, x ∉ V → ∀ y ∈ successors g x, y ∈ s.1) ∧
      (∀ x ∈ s.1, Reaches1 g start x)) :
    ∀ nbrs V R s, dfsStep dfsN nbrs V R = some s →
      R.Nodup → (∀ x, x ∈ R ↔ x ∈ V) →
      (∀ nb ∈ nbrs, Reaches1 g start nb) →
      (∀ x ∈ V, Reaches1 g start x) →
      s.2.Nodup ∧ (∀ x, x ∈ s.2 ↔ x ∈ s.1) ∧
      (∀ nb ∈ nbrs, nb ∈ s.1) ∧
      (∀ x ∈ s.1, x ∉ V → ∀ y ∈ successors g x, y ∈ s.1) ∧
      (∀ x ∈ s.1, Reaches1 g start x) := by
  intro nbrs
  induction nbrs with
  | nil =>
    intro V R s h hnd hiff _ hVreach
    simp only [dfsStep, Option.some.injEq] at h
    subst h
    exact ⟨hnd, hiff, by simp, fun x hx hxv => absurd hx hxv, hVreach⟩
  | cons nb rest ih =>
    intro V R s h hnd hiff hnbreach hVreach
    simp only [dfsStep] at h
    by_cases h1 : nb ∈ V
    · rw [if_pos h1] at h
      have hrec := ih V R s h hnd hiff
        (fun x hx => hnbreach x (List.mem_cons_of_mem _ hx)) hVreach
      refine ⟨hrec.1, hrec.2.1, ?_, hrec.2.2.2.1, hrec.2.2.2.2⟩
      intro x hx
      rcases List.mem_cons.mp hx with rfl | hx'
      · exact dfsStep_grow dfsN hNgrow rest V R s h x h1
      · exact hrec.2.2.1 x hx'
    · rw [if_neg h1] at h
      cases hN2 : dfsN nb (setAdd nb V) (R ++ [nb]) with
      | none => rw [hN2] at h; cases h
      | some s2 =>
        rw [hN2] at h
        have hnbr : Reaches1 g start nb := hnbreach nb (List.mem_cons_self _ _)
        have hndr : (R ++ [nb]).Nodup := by
          rw [List.nodup_append]
          refine ⟨hnd, List.nodup_singleton _, ?_⟩
          intro x hx hx1
          rcases List.mem_singleton.mp hx1 with rfl
          exact h1 ((hiff x).mp hx)
        have hiffr : ∀ x, x ∈ R ++ [nb] ↔ x ∈ setAdd nb V := by
          intro x
          rw [List.mem_append, List.mem_singleton, mem_setAdd_iff, hiff]
          tauto
        have hs2 := hN nb (setAdd nb V) (R ++ [nb]) s2 hN2 hndr hiffr
          (Or.inr hnbr)
          (by
            intro x hx
            rcases mem_setAdd_iff.mp hx with rfl | hx'
            · exact hnbr
            · exact hVreach x hx')
        have hrec := ih s2.1 s2.2 s h hs2.1 hs2.2.1
          (fun x hx => hnbreach x (List.mem_cons_of_mem _ hx)) hs2.2.2.2.2
        have hsub2 : ∀ x ∈ s2.1, x ∈ s.1 := dfsStep_grow dfsN hNgrow rest s2.1 s2.2 s h
        refine ⟨hrec.1, hrec.2.1, ?_, ?_, hrec.2.2.2.2⟩
        · intro x hx
          rcases List.mem_cons.mp hx with rfl | hx'
          · exact hsub2 x (hNgrow x _ _ s2 hN2 x (mem_setAdd_self _ _))
          · exact hrec.2.2.1 x hx'
        · intro x hx hxv
          by_cases hx2 : x ∈ s2.1
          · by_cases hx3 : x ∈ setAdd nb V
            · rcases mem_setAdd_iff.mp hx3 with rfl | hx4
              · intro y hy
                exact hsub2 y (hs2.2.2.1 y hy)
              · exact absurd hx4 hxv
            · intro y hy
              exact hsub2 y (hs2.2.2.2.1 x hx2 hx3 y hy)
          · exact hrec.2.2.2.1 x hx hx2

/-- Main invariant lemma for `dfs_visit`. -/
theorem dfsVisit_main (g : Graph) (start : Nat) : ∀ fuel node V R s,
    dfsVisit g fuel node V R = some s →
    R.Nodup → (∀ x, x ∈ R ↔ x ∈ V) →
    (node = start ∨ Reaches1 g start node) →
    (∀ x ∈ V, Reaches1 g start x) →
    s.2.Nodup ∧ (∀ x, x ∈ s.2 ↔ x ∈ s.1) ∧
    (∀ y ∈ successors g node, y ∈ s.1) ∧
    (∀ x ∈ s.1, x ∉ V → ∀ y ∈ successors g x, y ∈ s.1) ∧
    (∀ x ∈ s.1, Reaches1 g start x) := by
  intro fuel
  induction fuel with
  | zero => intro node V R s h; simp [dfsVisit] at h
  | succ fuel ih =>
    intro node V R s h hnd hiff hstat hVreach
    simp only [dfsVisit] at h
    have hnbreach : ∀ nb ∈ successors g node, Reaches1 g start nb := by
      intro nb hnb
      rcases hstat with rfl | hr
      · exact Relation.TransGen.single hnb
      · exact Relation.TransGen.tail hr hnb
    have hrec := dfsStep_main g start (dfsVisit g fuel)
      (fun n V' R' s' hh => dfsVisit_grow g fuel n V' R' s' hh)
      (fun n V' R' s' hh a b c d => ih n V' R' s' hh a b c d)
      (successors g node) V R s h hnd hiff hnbreach hVreach
    exact ⟨hrec.1, hrec.2.1, hrec.2.2.1, hrec.2.2.2.1, hrec.2.2.2.2⟩

/-- `dfs` emits exactly the nodes reachable from `start` by a nonempty path,
each exactly once. -/
theorem dfs_spec (g : Graph) (start : Nat) :
    (dfs g start).Nodup ∧ (∀ x, x ∈ dfs g start ↔ Reaches1 g start x) := by
  have hsome := dfsVisit_isSome g (travFuel g) start [] []
    (by
      have h1 := DAG.mUnv_le g []
      unfold travFuel
      omega)
  obtain ⟨s, hres⟩ := Option.isSome_iff_exists.mp hsome
  have hdfs : dfs g start = s.2 := by
    unfold dfs
    rw [hres]
  obtain ⟨hnd, hiff, hsucc, hclose, hreach⟩ := dfsVisit_main g start (travFuel g)
    start [] [] s hres List.nodup_nil (by simp) (Or.inl rfl)
    (by intro x hx; cases hx)
  rw [hdfs]
  refine ⟨hnd, ?_⟩
  intro x
  rw [hiff x]
  constructor
  · exact hreach x
  · intro hr
    obtain ⟨y, hy, hyr⟩ := DAG.transGen_head_decomp hr
    have hyVf : y ∈ s.1 := hsucc y hy
    clear hy hr
    induction hyr with
    | refl => exact hyVf
    | tail _ step ih2 =>
      exact hclose _ ih2 (fun hh => by cases hh) _ step

end TraversalLemmas
section WFPreservation

universe u' v'

/-- Looking up the key just written by a dict assignment yields the new value. -/
theorem alookup_dictSet_self {α : Type u'} {β : Type v'} [DecidableEq α]
    (l : List (α × β)) (k : α) (v : β) :
    alookup (dictSet l k v) k = some v := by
  unfold dictSet
  cases h : alookup l k with
  | some b =>
    rw [alookup_updFirst_self, h]
    rfl
  | none =>
    rw [alookup_append, h]
    show alookup [(k, v)] k = some v
    show (if k = k then some v else alookup [] k) = some v
    rw [if_pos rfl]

/-- Every entry of an updated association list is an old entry or the
rewritten first match. -/
theorem mem_updFirst {α : Type u'} {β : Type v'} [DecidableEq α]
    (l : List (α × β)) (k : α) (f : β → β) :
    ∀ q ∈ updFirst l k f, q ∈ l ∨ (q.1 = k ∧ ∃ b, (k, b) ∈ l ∧ q.2 = f b) := by
  induction l with
  | nil =>
    intro q hq
    simp [updFirst] at hq
  | cons p t ih =>
    intro q hq
    by_cases h : p.1 = k
    · rw [updFirst, if_pos h] at hq
      rcases List.mem_cons.mp hq with rfl | hq1
      · refine Or.inr ⟨h, p.2, ?_, rfl⟩
        rw [← h]
        exact List.mem_cons_self _ _
      · exact Or.inl (List.mem_cons_of_mem _ hq1)
    · rw [updFirst, if_neg h] at hq
      rcases List.mem_cons.mp hq with rfl | hq1
      · exact Or.inl (List.mem_cons_self _ _)
      · rcases ih q hq1 with h1 | ⟨h1, b, hb, h2⟩
        · exact Or.inl (List.mem_cons_of_mem _ h1)
        · exact Or.inr ⟨h1, b, List.mem_cons_of_mem _ hb, h2⟩

/-- Every entry after a dict assignment is an old entry or the new pair. -/
theorem mem_dictSet {α : Type u'} {β : Type v'} [DecidableEq α]
    (l : List (α × β)) (k : α) (v : β) :
    ∀ q ∈ dictSet l k v, q ∈ l ∨ q = (k, v) := by
  unfold dictSet
  cases h : alookup l k with
  | some b =>
    intro q hq
    rcases mem_updFirst l k (fun _ => v) q hq with h1 | ⟨h1, b2, hb2, h2⟩
    · exact Or.inl h1
    · obtain ⟨a, c⟩ := q
      right
      rw [Prod.mk.injEq]
      exact ⟨h1, h2⟩
  | none =>
    intro q hq
    rcases List.mem_append.mp hq with h1 | h1
    · exact Or.inl h1
    · exact Or.inr (List.mem_singleton.mp h1)

/-- A dict assignment preserves key uniqueness. -/
theorem akeys_dictSet_nodup {α : Type u'} {β : Type v'} [DecidableEq α]
    (l : List (α × β)) (k : α) (v : β) (h : (akeys l).Nodup) :
    (akeys (dictSet l k v)).Nodup := by
  unfold dictSet
  cases hl : alookup l k with
  | some b =>
    rw [akeys_updFirst]
    exact h
  | none =>
    rw [akeys_append, List.nodup_append]
    refine ⟨h, List.nodup_singleton _, ?_⟩
    intro x hx hx1
    have hxk : x = k := by
      have h2 : x ∈ akeys [(k, v)] := hx1
      rw [show akeys [(k, v)] = [k] from rfl, List.mem_singleton] at h2
      exact h2
    subst hxk
    exact (alookup_eq_none_iff l x).mp hl hx

/-- The weight map after a base-class edge insertion is a dict assignment of
the old weight map. -/
theorem edge_weights_add_edge (g : Graph) (u v : Nat) (w : Option Int) :
    (SortableDigraph.add_edge g u v w).edge_weights = dictSet g.edge_weights (u, v) w := by
  show dictSet (SortableDigraph.add_node (SortableDigraph.add_node g u none) v
      none).edge_weights (u, v) w = _
  rw [edge_weights_add_node, edge_weights_add_node]

/-- Reading back the weight just stored by a base-class edge insertion. -/
theorem get_edge_weight_add_edge (g : Graph) (u v : Nat) (w : Option Int) :
    SortableDigraph.get_edge_weight (SortableDigraph.add_edge g u v w) u v = w := by
  unfold SortableDigraph.get_edge_weight
  rw [edge_weights_add_edge, alookup_dictSet_self]

/-- `add_node` preserves well-formedness. -/
theorem wf_add_node (g : Graph) (n : Nat) (d : Option Int) (hwf : WF g) :
    WF (SortableDigraph.add_node g n d) := by
  cases h : alookup g.adj n with
  | some l =>
    have hgg : SortableDigraph.add_node g n d = g := by
      unfold SortableDigraph.add_node
      rw [h]
    rw [hgg]
    exact hwf
  | none =>
    have hnk : n ∉ akeys g.adj := (alookup_eq_none_iff _ _).mp h
    have hgg : SortableDigraph.add_node g n d =
        { g with adj := g.adj ++ [(n, [])], node_data := g.node_data ++ [(n, d)] } := by
      unfold SortableDigraph.add_node
      rw [h]
    refine ⟨?_, ?_, ?_, ?_, ?_⟩
    · rw [hgg]
      show (akeys (g.adj ++ [(n, [])])).Nodup
      rw [akeys_append, List.nodup_append]
      refine ⟨hwf.1, List.nodup_singleton _, ?_⟩
      intro x hx hx1
      have hxn : x = n := by
        have h2 : x ∈ akeys [(n, ([] : List Nat))] := hx1
        rw [show akeys [(n, ([] : List Nat))] = [n] from rfl, List.mem_singleton] at h2
        exact h2
      subst hxn
      exact hnk hx
    · rw [hgg]
      show akeys (g.node_data ++ [(n, d)]) = akeys (g.adj ++ [(n, [])])
      rw [akeys_append, akeys_append, hwf.2.1]
      rfl
    · rw [hgg]
      exact hwf.2.2.1
    · rw [hgg]
      intro p hp x hx
      show x ∈ akeys (g.adj ++ [(n, [])])
      rw [akeys_append]
      rcases List.mem_append.mp hp with hp1 | hp1
      · exact List.mem_append_left _ (hwf.2.2.2.1 p hp1 x hx)
      · rcases List.mem_singleton.mp hp1 with rfl
        exact absurd hx (List.not_mem_nil x)
    · rw [hgg]
      intro q hq
      rw [← hgg, successors_add_node]
      exact hwf.2.2.2.2 q hq

end WFPreservation

section WFPreservation2

/-- The base-class `add_edge` preserves well-formedness. -/
theorem wf_add_edge (g : Graph) (u v : Nat) (w : Option Int) (hwf : WF g) :
    WF (SortableDigraph.add_edge g u v w) := by
  have hwf2 : WF (SortableDigraph.add_node (SortableDigraph.add_node g u none) v none) :=
    wf_add_node _ v none (wf_add_node g u none hwf)
  have hu : u ∈ akeys (SortableDigraph.add_node (SortableDigraph.add_node g u none) v none).adj :=
    mem_akeys_of_alookup _ _ _ (alookup_ensure_endpoints g u v)
  have hv : v ∈ akeys (SortableDigraph.add_node (SortableDigraph.add_node g u none) v none).adj :=
    mem_akeys_of_alookup _ _ _ (alookup_add_node_self (SortableDigraph.add_node g u none) v none)
  refine ⟨?_, ?_, ?_, ?_, ?_⟩
  · show (akeys (updFirst (SortableDigraph.add_node (SortableDigraph.add_node g u none) v
        none).adj u (fun l => l ++ [v]))).Nodup
    rw [akeys_updFirst]
    exact hwf2.1
  · show akeys (SortableDigraph.add_node (SortableDigraph.add_node g u none) v none).node_data
      = akeys (updFirst (SortableDigraph.add_node (SortableDigraph.add_node g u none) v
        none).adj u (fun l => l ++ [v]))
    rw [akeys_updFirst]
    exact hwf2.2.1
  · show (akeys (dictSet (SortableDigraph.add_node (SortableDigraph.add_node g u none) v
        none).edge_weights (u, v) w)).Nodup
    exact akeys_dictSet_nodup _ _ _ hwf2.2.2.1
  · intro p hp x hx
    show x ∈ akeys (updFirst (SortableDigraph.add_node (SortableDigraph.add_node g u none) v
      none).adj u (fun l => l ++ [v]))
    rw [akeys_updFirst]
    rcases mem_updFirst _ u (fun l => l ++ [v]) p hp with hp1 | ⟨hp1, b, hb, hp2⟩
    · exact hwf2.2.2.2.1 p hp1 x hx
    · rw [hp2] at hx
      rcases List.mem_append.mp hx with hx1 | hx1
      · exact hwf2.2.2.2.1 (u, b) hb x hx1
      · rcases List.mem_singleton.mp hx1 with rfl
        exact hv
  · intro q hq
    rcases mem_dictSet _ (u, v) w q hq with hq1 | rfl
    · have hq2 : q ∈ g.edge_weights := by
        have hge : (SortableDigraph.add_node (SortableDigraph.add_node g u none) v
            none).edge_weights = g.edge_weights := by
          rw [edge_weights_add_node, edge_weights_add_node]
        rw [← hge]
        exact hq1
      have hold := hwf.2.2.2.2 q hq2
      show q.1.2 ∈ SortableDigraph.successors (SortableDigraph.add_edge g u v w) q.1.1
      rw [successors_add_edge]
      by_cases hqu : q.1.1 = u
      · rw [if_pos hqu]
        rw [hqu] at hold
        exact List.mem_append_left _ hold
      · rw [if_neg hqu]
        exact hold
    · show v ∈ SortableDigraph.successors (SortableDigraph.add_edge g u v w) u
      rw [successors_add_edge, if_pos rfl]
      exact List.mem_append_right _ (List.mem_singleton.mpr rfl)

/-- Either outcome of the guarded `DAG.add_edge` preserves well-formedness
(for acyclic starting states, where the rollback is exact). -/
theorem wf_dag_add_edge (g : Graph) (s d : Nat) (w : Option Int)
    (hwf : WF g) (hac : Acyclic g) : WF (DAG.add_edge g s d w).1 := by
  by_cases hdet : DAG.detect_cycle (SortableDigraph.add_edge g s d w) = true
  · have hr : (DAG.add_edge g s d w).2 = true := (dag_add_edge_raised_iff g s d w).mpr hdet
    rw [dag_add_edge_rollback_exact g s d w hwf hac hr]
    exact wf_add_node _ d none (wf_add_node g s none hwf)
  · rw [dag_add_edge_fst_ok g s d w hdet]
    exact wf_add_edge g s d w hwf

theorem wf_applyDOp (g : Graph) (op : DOp) (hwf : WF g) (hac : Acyclic g) :
    WF (applyDOp g op) := by
  cases op with
  | addNodeOp n dd => exact wf_add_node g n dd hwf
  | addEdgeOp u v w => exact wf_dag_add_edge g u v w hwf hac

theorem wf_foldl (ops : List DOp) : ∀ g, WF g → Acyclic g →
    WF (ops.foldl applyDOp g) := by
  induction ops with
  | nil => exact fun g hw _ => hw
  | cons op rest ih =>
    exact fun g hw ha => ih (applyDOp g op) (wf_applyDOp g op hw ha) (acyclic_applyDOp g op ha)

/-- Every state reachable by a client program on a fresh `DAG` is well-formed:
the `WF` hypotheses used below hold for all states the Python object can be in. -/
theorem wf_runDAG (ops : List DOp) : WF (runDAG ops) :=
  wf_foldl ops Graph.empty (by decide) acyclic_empty

end WFPreservation2

namespace SortableDigraph

/-- The body of `visit`'s `for neighbor in self.adj.get(node, [])` loop in the
base-class `topsort`; `tsN` is the recursive call at one lower fuel.  Unlike
the cycle detector, the Python code calls `visit(neighbor)` unconditionally
and the visited check sits inside `visit`. -/
def tsStep (tsN : Nat → List Nat → List Nat → Option (List Nat × List Nat)) :
    List Nat → List Nat → List Nat → Option (List Nat × List Nat)
  | [], visited, result => some (visited, result)
  | nb :: rest, visited, result =>
    match tsN nb visited result with
    | none => none
    | some s => tsStep tsN rest s.1 s.2

/-- `visit(node)` of the base-class `topsort`: return unchanged when `node` is
already visited, otherwise mark it visited, visit all successors, then append
`node` to the postorder result. -/
def tsVisit (g : Graph) : Nat → Nat → List Nat → List Nat → Option (List Nat × List Nat)
  | 0, _, _, _ => none
  | fuel + 1, node, visited, result =>
    if node ∈ visited then some (visited, result)
    else
      match tsStep (tsVisit g fuel) (successors g node) (setAdd node visited) result with
      | none => none
      | some s => some (s.1, s.2 ++ [node])

/-- The `for node in list(self.adj.keys())` loop of the base-class `topsort`. -/
def tsLoop (g : Graph) (fuel : Nat) : List Nat → List Nat → List Nat → Option (List Nat)
  | [], _, result => some result
  | n :: rest, visited, result =>
    match tsVisit g fuel n visited result with
    | none => none
    | some s => tsLoop g fuel rest s.1 s.2

/-- `SortableDigraph.topsort`: DFS postorder over all keys, reversed
(`result[::-1]`).  This is the un-overridden `topsort()` still exposed on
`TraversableDigraph` and `DAG` instances; it performs no cycle detection and
cannot fail. -/
def topsort (g : Graph) : List Nat :=
  ((tsLoop g (TraversableDigraph.travFuel g) (akeys g.adj) [] []).getD []).reverse

end SortableDigraph

section TopsortLemmas

open SortableDigraph

theorem tsStep_grow (tsN : Nat → List Nat → List Nat → Option (List Nat × List Nat))
    (hg : ∀ n V R s, tsN n V R = some s → ∀ x ∈ V, x ∈ s.1) :
    ∀ nbrs V R s, tsStep tsN nbrs V R = some s → ∀ x ∈ V, x ∈ s.1 := by
  intro nbrs
  induction nbrs with
  | nil =>
    intro V R s h x hx
    simp only [tsStep, Option.some.injEq] at h
    subst h
    exact hx
  | cons nb rest ih =>
    intro V R s h x hx
    simp only [tsStep] at h
    cases hN : tsN nb V R with
    | none => rw [hN] at h; cases h
    | some s1 =>
      rw [hN] at h
      replace h : tsStep tsN rest s1.1 s1.2 = some s := h
      exact ih s1.1 s1.2 s h x (hg nb V R s1 hN x hx)

theorem tsVisit_grow (g : Graph) : ∀ fuel node V R s,
    tsVisit g fuel node V R = some s → ∀ x ∈ V, x ∈ s.1 := by
  intro fuel
  induction fuel with
  | zero => intro node V R s h; simp [tsVisit] at h
  | succ fuel ih =>
    intro node V R s h x hx
    simp only [tsVisit] at h
    by_cases h1 : node ∈ V
    · rw [if_pos h1] at h
      injection h with h
      subst h
      exact hx
    · rw [if_neg h1] at h
      cases hstep : tsStep (tsVisit g fuel) (successors g node) (setAdd node V) R with
      | none => rw [hstep] at h; cases h
      | some sf =>
        rw [hstep] at h
        replace h : some (sf.1, sf.2 ++ [node]) = some s := h
        injection h with h
        subst h
        exact tsStep_grow _ (fun n V' R' s' hh => ih n V' R' s' hh) _ _ _ _ hstep x
          (mem_setAdd_of_mem hx)

theorem tsStep_isSome (g : Graph) (m : Nat)
    (tsN : Nat → List Nat → List Nat → Option (List Nat × List Nat))
    (hg : ∀ n V R s, tsN n V R = some s → ∀ x ∈ V, x ∈ s.1)
    (hs : ∀ n V R, n ∈ nodesOf g → DAG.mUnv g V < m → (tsN n V R).isSome = true) :
    ∀ nbrs V R, (∀ x ∈ nbrs, x ∈ nodesOf g) → DAG.mUnv g V < m →
    (tsStep tsN nbrs V R).isSome = true := by
  intro nbrs
  induction nbrs with
  | nil => intro V R _ _; simp [tsStep]
  | cons nb rest ih =>
    intro V R hnb hm
    simp only [tsStep]
    have hsome := hs nb V R (hnb nb (List.mem_cons_self _ _)) hm
    cases hN : tsN nb V R with
    | none => rw [hN] at hsome; cases hsome
    | some s1 =>
      show (tsStep tsN rest s1.1 s1.2).isSome = true
      have hm1 : DAG.mUnv g s1.1 ≤ DAG.mUnv g V := DAG.mUnv_mono g (hg nb V R s1 hN)
      exact ih s1.1 s1.2 (fun x hx => hnb x (List.mem_cons_of_mem _ hx)) (by omega)

theorem tsVisit_isSome (g : Graph) : ∀ fuel node V R,
    node ∈ nodesOf g → DAG.mUnv g V < fuel →
    (tsVisit g fuel node V R).isSome = true := by
  intro fuel
  induction fuel with
  | zero => intro node V R _ hm; exact absurd hm (Nat.not_lt_zero _)
  | succ fuel ih =>
    intro node V R hn hm
    simp only [tsVisit]
    by_cases h1 : node ∈ V
    · rw [if_pos h1]; rfl
    · rw [if_neg h1]
      have hm1 : DAG.mUnv g (setAdd node V) < fuel := by
        have h2 := DAG.mUnv_setAdd g hn h1
        omega
      have hstep := tsStep_isSome g fuel (tsVisit g fuel)
        (fun n V' R' s' hh => tsVisit_grow g fuel n V' R' s' hh)
        (fun n V' R' hn' hm' => ih n V' R' hn' hm')
        (successors g node) (setAdd node V) R
        (successors_subset_nodesOf g node) hm1
      cases hres : tsStep (tsVisit g fuel) (successors g node) (setAdd node V) R with
      | none => rw [hres] at hstep; cases hstep
      | some sf => rfl

theorem tsLoop_isSome (g : Graph) : ∀ entries V R,
    (∀ x ∈ entries, x ∈ nodesOf g) →
    (tsLoop g (TraversableDigraph.travFuel g) entries V R).isSome = true := by
  intro entries
  induction entries with
  | nil => intro V R _; simp [tsLoop]
  | cons n rest ih =>
    intro V R hent
    simp only [tsLoop]
    have hm : DAG.mUnv g V < TraversableDigraph.travFuel g := by
      have h2 := DAG.mUnv_le g V
      unfold TraversableDigraph.travFuel
      omega
    have hsome := tsVisit_isSome g (TraversableDigraph.travFuel g) n V R
      (hent n (List.mem_cons_self _ _)) hm
    cases hN : tsVisit g (TraversableDigraph.travFuel g) n V R with
    | none => rw [hN] at hsome; cases hsome
    | some s =>
      show (tsLoop g (TraversableDigraph.travFuel g) rest s.1 s.2).isSome = true
      exact ih s.1 s.2 (fun x hx => hent x (List.mem_cons_of_mem _ hx))

/-- Joint invariant lemma for the neighbor loop of `visit`: with `G` the ghost
recursion stack of gray nodes, the visited set is the result set plus `G`, the
gray nodes stay out of the result, and the result is a duplicate-free list of
keys extending the old one. -/
theorem tsStep_main (g : Graph) (G : List Nat)
    (tsN : Nat → List Nat → List Nat → Option (List Nat × List Nat))
    (hN : ∀ node V R s, tsN node V R = some s →
      R.Nodup → (∀ x, x ∈ V ↔ (x ∈ R ∨ x ∈ G)) → (∀ x ∈ G, x ∉ R) →
      (∀ x ∈ R, x ∈ akeys g.adj) → node ∈ akeys g.adj →
      s.2.Nodup ∧ (∀ x, x ∈ s.1 ↔ (x ∈ s.2 ∨ x ∈ G)) ∧ (∀ x ∈ G, x ∉ s.2) ∧
      (∀ x ∈ s.2, x ∈ akeys g.adj) ∧ (∀ x ∈ R, x ∈ s.2)) :
    ∀ nbrs V R s, tsStep tsN nbrs V R = some s →
      R.Nodup → (∀ x, x ∈ V ↔ (x ∈ R ∨ x ∈ G)) → (∀ x ∈ G, x ∉ R) →
      (∀ x ∈ R, x ∈ akeys g.adj) → (∀ nb ∈ nbrs, nb ∈ akeys g.adj) →
      s.2.Nodup ∧ (∀ x, x ∈ s.1 ↔ (x ∈ s.2 ∨ x ∈ G)) ∧ (∀ x ∈ G, x ∉ s.2) ∧
      (∀ x ∈ s.2, x ∈ akeys g.adj) ∧ (∀ x ∈ R, x ∈ s.2) := by
  intro nbrs
  induction nbrs with
  | nil =>
    intro V R s h hnd hsync hdisj hkeys _
    simp only [tsStep, Option.some.injEq] at h
    subst h
    exact ⟨hnd, hsync, hdisj, hkeys, fun x hx => hx⟩
  | cons nb rest ih =>
    intro V R s h hnd hsync hdisj hkeys hnbs
    simp only [tsStep] at h
    cases hN1 : tsN nb V R with
    | none => rw [hN1] at h; cases h
    | some s1 =>
      rw [hN1] at h
      replace h : tsStep tsN rest s1.1 s1.2 = some s := h
      have h1 := hN nb V R s1 hN1 hnd hsync hdisj hkeys (hnbs nb (List.mem_cons_self _ _))
      have h2 := ih s1.1 s1.2 s h h1.1 h1.2.1 h1.2.2.1 h1.2.2.2.1
        (fun x hx => hnbs x (List.mem_cons_of_mem _ hx))
      exact ⟨h2.1, h2.2.1, h2.2.2.1, h2.2.2.2.1,
        fun x hx => h2.2.2.2.2 x (h1.2.2.2.2 x hx)⟩

/-- Main invariant lemma for `visit` of the base-class `topsort`. -/
theorem tsVisit_main (g : Graph)
    (hcl : ∀ p ∈ g.adj, ∀ y ∈ p.2, y ∈ akeys g.adj) :
    ∀ (fuel node : Nat) (V R G : List Nat) (s : List Nat × List Nat),
    tsVisit g fuel node V R = some s →
    R.Nodup → (∀ x, x ∈ V ↔ (x ∈ R ∨ x ∈ G)) → (∀ x ∈ G, x ∉ R) →
    (∀ x ∈ R, x ∈ akeys g.adj) → node ∈ akeys g.adj →
    s.2.Nodup ∧ (∀ x, x ∈ s.1 ↔ (x ∈ s.2 ∨ x ∈ G)) ∧ (∀ x ∈ G, x ∉ s.2) ∧
    (∀ x ∈ s.2, x ∈ akeys g.adj) ∧ (∀ x ∈ R, x ∈ s.2) ∧
    (node ∈ s.2 ∨ node ∈ G) := by
  intro fuel
  induction fuel with
  | zero => intro node V R G s h; simp [tsVisit] at h
  | succ fuel ih =>
    intro node V R G s h hnd hsync hdisj hkeys hnode
    simp only [tsVisit] at h
    by_cases h1 : node ∈ V
    · rw [if_pos h1] at h
      injection h with h
      subst h
      exact ⟨hnd, hsync, hdisj, hkeys, fun x hx => hx, (hsync node).mp h1⟩
    · rw [if_neg h1] at h
      cases hstep : tsStep (tsVisit g fuel) (successors g node) (setAdd node V) R with
      | none => rw [hstep] at h; cases h
      | some sf =>
        rw [hstep] at h
        replace h : some (sf.1, sf.2 ++ [node]) = some s := h
        injection h with h
        subst h
        have hnR : node ∉ R := fun hh => h1 ((hsync node).mpr (Or.inl hh))
        have hnG : node ∉ G := fun hh => h1 ((hsync node).mpr (Or.inr hh))
        have hsync2 : ∀ x, x ∈ setAdd node V ↔ (x ∈ R ∨ x ∈ node :: G) := by
          intro x
          rw [mem_setAdd_iff, hsync, List.mem_cons]
          tauto
        have hdisj2 : ∀ x ∈ node :: G, x ∉ R := by
          intro x hx
          rcases List.mem_cons.mp hx with rfl | hx1
          · exact hnR
          · exact hdisj x hx1
        have hstepm := tsStep_main g (node :: G) (tsVisit g fuel)
          (fun n V' R' s' hh a b c d e =>
            ⟨(ih n V' R' (node :: G) s' hh a b c d e).1,
             (ih n V' R' (node :: G) s' hh a b c d e).2.1,
             (ih n V' R' (node :: G) s' hh a b c d e).2.2.1,
             (ih n V' R' (node :: G) s' hh a b c d e).2.2.2.1,
             (ih n V' R' (node :: G) s' hh a b c d e).2.2.2.2.1⟩)
          (successors g node) (setAdd node V) R sf hstep
          hnd hsync2 hdisj2 hkeys
          (fun nb hnb => succs_subset_keys hcl node nb hnb)
        have hnsf : node ∉ sf.2 := hstepm.2.2.1 node (List.mem_cons_self _ _)
        refine ⟨?_, ?_, ?_, ?_, ?_, ?_⟩
        · rw [List.nodup_append]
          refine ⟨hstepm.1, List.nodup_singleton _, ?_⟩
          intro x hx hx1
          rcases List.mem_singleton.mp hx1 with rfl
          exact hnsf hx
        · intro x
          rw [hstepm.2.1 x, List.mem_append, List.mem_singleton, List.mem_cons]
          tauto
        · intro x hx
          rw [List.mem_append, List.mem_singleton]
          push_neg
          refine ⟨hstepm.2.2.1 x (List.mem_cons_of_mem _ hx), ?_⟩
          rintro rfl
          exact hnG hx
        · intro x hx
          rcases List.mem_append.mp hx with hx1 | hx1
          · exact hstepm.2.2.2.1 x hx1
          · rcases List.mem_singleton.mp hx1 with rfl
            exact hnode
        · intro x hx
          exact List.mem_append_left _ (hstepm.2.2.2.2 x hx)
        · exact Or.inl (List.mem_append_right _ (List.mem_singleton.mpr rfl))

/-- Main invariant lemma for the key loop of the base-class `topsort`. -/
theorem tsLoop_main (g : Graph)
    (hcl : ∀ p ∈ g.adj, ∀ y ∈ p.2, y ∈ akeys g.adj) (fuel : Nat) :
    ∀ entries V R res, tsLoop g fuel entries V R = some res →
    R.Nodup → (∀ x, x ∈ V ↔ x ∈ R) → (∀ x ∈ R, x ∈ akeys g.adj) →
    (∀ x ∈ entries, x ∈ akeys g.adj) →
    res.Nodup ∧ (∀ x ∈ res, x ∈ akeys g.adj) ∧ (∀ x ∈ R, x ∈ res) ∧
    (∀ n ∈ entries, n ∈ res) := by
  intro entries
  induction entries with
  | nil =>
    intro V R res h hnd _ hkeys _
    simp only [tsLoop, Option.some.injEq] at h
    subst h
    exact ⟨hnd, hkeys, fun x hx => hx, by simp⟩
  | cons n rest ih =>
    intro V R res h hnd hsync hkeys hent
    simp only [tsLoop] at h
    cases hN : tsVisit g fuel n V R with
    | none => rw [hN] at h; cases h
    | some s =>
      rw [hN] at h
      replace h : tsLoop g fuel rest s.1 s.2 = some res := h
      have hm := tsVisit_main g hcl fuel n V R [] s hN hnd
        (by intro x; rw [hsync x]; simp) (by simp) hkeys
        (hent n (List.mem_cons_self _ _))
      have hsync2 : ∀ x, x ∈ s.1 ↔ x ∈ s.2 := by
        intro x
        rw [hm.2.1 x]
        simp
      have hrec := ih s.1 s.2 res h hm.1 hsync2 hm.2.2.2.1
        (fun x hx => hent x (List.mem_cons_of_mem _ hx))
      refine ⟨hrec.1, hrec.2.1, fun x hx => hrec.2.2.1 x (hm.2.2.2.2.1 x hx), ?_⟩
      intro x hx
      rcases List.mem_cons.mp hx with rfl | hx1
      · rcases hm.2.2.2.2.2 with h2 | h2
        · exact hrec.2.2.1 x h2
        · cases h2
      · exact hrec.2.2.2 x hx1

/-- On every well-formed state — cyclic or not — the base-class `topsort`
returns a permutation of all the nodes; it never fails. -/
theorem topsort_perm (g : Graph) (hwf : WF g) :
    (SortableDigraph.topsort g).Perm (SortableDigraph.get_nodes g) := by
  have hsome := tsLoop_isSome g (akeys g.adj) [] []
    (fun x hx => keys_subset_nodesOf g x hx)
  obtain ⟨res, hres⟩ := Option.isSome_iff_exists.mp hsome
  have htops : SortableDigraph.topsort g = res.reverse := by
    unfold SortableDigraph.topsort
    rw [hres]
    rfl
  obtain ⟨hnd, hkeys, -, hcov⟩ := tsLoop_main g hwf.2.2.2.1
    (TraversableDigraph.travFuel g) (akeys g.adj) [] [] res hres
    List.nodup_nil (by simp) (by simp) (fun x hx => hx)
  have hperm : res.Perm (akeys g.adj) := by
    refine (List.subperm_of_subset hnd hkeys).perm_of_length_le ?_
    exact (List.subperm_of_subset hwf.1 hcov).length_le
  rw [htops]
  exact (List.reverse_perm res).trans hperm

end TopsortLemmas

section Claims

/-- Claim C1 (corrected): a rejected `DAG.add_edge src dest w` rolls the edge
insertion back exactly, but the endpoint nodes auto-created by the speculative
insertion are not removed.  The state after a failed call equals the prior
state with `src` and `dest` ensured as isolated, valueless nodes; in
particular it is identical to the prior state whenever both endpoints already
existed. -/
theorem C1_rollback_atomicity (g : Graph) (s d : Nat) (w : Option Int)
    (hwf : WF g) (hac : Acyclic g) (hr : (DAG.add_edge g s d w).2 = true) :
    (DAG.add_edge g s d w).1 =
      SortableDigraph.add_node (SortableDigraph.add_node g s none) d none ∧
    (s ∈ SortableDigraph.get_nodes g → d ∈ SortableDigraph.get_nodes g →
      (DAG.add_edge g s d w).1 = g) := by
  have h1 := dag_add_edge_rollback_exact g s d w hwf hac hr
  refine ⟨h1, ?_⟩
  intro hs hd
  rw [h1, add_node_mem_noop g s none hs]
  exact add_node_mem_noop g d none hd

/-- Witness for C1: on the well-formed acyclic state holding the single edge
`0 → 1`, the rejected insertion `1 → 0` leaves exactly the characterized
state (here both endpoints pre-exist, so the original state). -/
theorem C1_rollback_atomicity_witness :
    (DAG.add_edge (SortableDigraph.add_edge Graph.empty 0 1 none) 1 0 (some 1)).1 =
      SortableDigraph.add_node (SortableDigraph.add_node
        (SortableDigraph.add_edge Graph.empty 0 1 none) 1 none) 0 none ∧
    (1 ∈ SortableDigraph.get_nodes (SortableDigraph.add_edge Graph.empty 0 1 none) →
      0 ∈ SortableDigraph.get_nodes (SortableDigraph.add_edge Graph.empty 0 1 none) →
      (DAG.add_edge (SortableDigraph.add_edge Graph.empty 0 1 none) 1 0 (some 1)).1 =
        SortableDigraph.add_edge Graph.empty 0 1 none) :=
  C1_rollback_atomicity (SortableDigraph.add_edge Graph.empty 0 1 none) 1 0 (some 1)
    (by decide) ((DAG.detect_cycle_eq_false_iff _).mp (by decide)) (by decide)

/-- Counterexample for C1 as stated: on the empty `DAG`, the rejected
self-loop insertion `0 → 0` raises but leaves node `0` behind, so the state
after the failed call differs from the state before it. -/
theorem C1_counterexample :
    (DAG.add_edge Graph.empty 0 0 (some 1)).2 = true ∧
    (DAG.add_edge Graph.empty 0 0 (some 1)).1 ≠ Graph.empty := by
  decide

/-- Claim C2 (confirmed): every sequence of `add_node` / `add_edge` operations
on a fresh `DAG` — whether each `add_edge` succeeds or raises — leaves an
acyclic adjacency relation: no node reaches itself by one or more edges. -/
theorem C2_always_acyclic (ops : List DOp) : Acyclic (runDAG ops) :=
  acyclic_foldl ops Graph.empty acyclic_empty

/-- Claim C3 (corrected): on every well-formed acyclic state, `DAG.top_sort`
returns an ordering of all nodes in which every edge `u → v` puts `u` strictly
before `v`, and on every well-formed cyclic state it fails with a cycle error;
but the claim's other cited topological sort, the base-class `topsort`
(still exposed un-overridden on `DAG` instances), never fails: on every
well-formed state, cyclic or not, it returns an ordering of all the nodes
(a reversed DFS postorder) instead of raising a cycle error. -/
theorem C3_top_sort_correct (g : Graph) (hwf : WF g) :
    (Acyclic g → ∃ l, DAG.top_sort g = Except.ok l ∧
      l.Perm (SortableDigraph.get_nodes g) ∧ ∀ u v, Adj g u v → Before l u v) ∧
    (¬ Acyclic g → ∃ e, DAG.top_sort g = Except.error e) ∧
    (SortableDigraph.topsort g).Perm (SortableDigraph.get_nodes g) := by
  refine ⟨?_, (top_sort_error_iff g hwf).mpr, topsort_perm g hwf⟩
  intro hac
  obtain ⟨l, hok⟩ := (top_sort_ok_iff g hwf).mpr hac
  obtain ⟨hperm, hval⟩ := top_sort_ok_spec g hwf l hok
  exact ⟨l, hok, hperm, hval⟩

/-- Witness for C3 at the two-edge chain `0 → 1 → 2`. -/
theorem C3_top_sort_correct_witness :
    (Acyclic (SortableDigraph.add_edge (SortableDigraph.add_edge Graph.empty 0 1 none) 1 2 none) →
      ∃ l, DAG.top_sort (SortableDigraph.add_edge
          (SortableDigraph.add_edge Graph.empty 0 1 none) 1 2 none) = Except.ok l ∧
        l.Perm (SortableDigraph.get_nodes (SortableDigraph.add_edge
          (SortableDigraph.add_edge Graph.empty 0 1 none) 1 2 none)) ∧
        ∀ u v, Adj (SortableDigraph.add_edge
          (SortableDigraph.add_edge Graph.empty 0 1 none) 1 2 none) u v →
          Before l u v) ∧
    (¬ Acyclic (SortableDigraph.add_edge (SortableDigraph.add_edge Graph.empty 0 1 none) 1 2 none) →
      ∃ e, DAG.top_sort (SortableDigraph.add_edge
          (SortableDigraph.add_edge Graph.empty 0 1 none) 1 2 none) = Except.error e) ∧
    (SortableDigraph.topsort (SortableDigraph.add_edge
        (SortableDigraph.add_edge Graph.empty 0 1 none) 1 2 none)).Perm
      (SortableDigraph.get_nodes (SortableDigraph.add_edge
        (SortableDigraph.add_edge Graph.empty 0 1 none) 1 2 none)) :=
  C3_top_sort_correct
    (SortableDigraph.add_edge (SortableDigraph.add_edge Graph.empty 0 1 none) 1 2 none)
    (by decide)

/-- Counterexample for C3 as stated: the state with the two-cycle `0 → 1 → 0`
contains a cycle, yet the base-class `topsort` — one of the claim's cited
topological sort operations, and the one `DAG` instances still expose as
`topsort()` — returns the full ordering `[0, 1]` instead of failing with a
cycle error. -/
theorem C3_counterexample :
    (∃ c, Reaches1 (SortableDigraph.add_edge
        (SortableDigraph.add_edge Graph.empty 0 1 none) 1 0 none) c c) ∧
    SortableDigraph.topsort (SortableDigraph.add_edge
        (SortableDigraph.add_edge Graph.empty 0 1 none) 1 0 none) = [0, 1] :=
  ⟨(DAG.detect_cycle_eq_true_iff _).mp (by decide), by decide⟩

/-- Claim C4 (confirmed): on every well-formed state, the DFS-coloring cycle
detector and the Kahn-based detector agree — `_detect_cycle` returns `True`
exactly when `top_sort` raises a cycle error. -/
theorem C4_detector_agreement (g : Graph) (hwf : WF g) :
    (DAG.detect_cycle g = true ↔ ∃ e, DAG.top_sort g = Except.error e) :=
  detect_iff_top_sort_error g hwf

/-- Witness for C4 at the two-cycle `3 → 4 → 3`, where both detectors fire. -/
theorem C4_detector_agreement_witness :
    (DAG.detect_cycle (SortableDigraph.add_edge
        (SortableDigraph.add_edge Graph.empty 3 4 none) 4 3 none) = true ↔
      ∃ e, DAG.top_sort (SortableDigraph.add_edge
        (SortableDigraph.add_edge Graph.empty 3 4 none) 4 3 none) = Except.error e) :=
  C4_detector_agreement
    (SortableDigraph.add_edge (SortableDigraph.add_edge Graph.empty 3 4 none) 4 3 none)
    (by decide)

/-- Claim C5 (corrected): `DAG.add_edge n n w` always raises a cycle error,
and on a well-formed acyclic state the resulting state is the prior state with
`n` ensured as an isolated valueless node — identical to the prior state when
`n` already existed, but changed (node `n` is left behind) when it did not. -/
theorem C5_self_loop_rejected (g : Graph) (n : Nat) (w : Option Int)
    (hwf : WF g) (hac : Acyclic g) :
    (DAG.add_edge g n n w).2 = true ∧
    (DAG.add_edge g n n w).1 = SortableDigraph.add_node g n none ∧
    (n ∈ SortableDigraph.get_nodes g → (DAG.add_edge g n n w).1 = g) := by
  refine ⟨dag_add_edge_self_raised g n w, dag_add_edge_self_state g n w hwf hac, ?_⟩
  intro hn
  rw [dag_add_edge_self_state g n w hwf hac]
  exact add_node_mem_noop g n none hn

/-- Witness for C5 on the state holding node `2` with value `4`: the self-loop
`2 → 2` raises and the state is unchanged. -/
theorem C5_self_loop_rejected_witness :
    (DAG.add_edge (SortableDigraph.add_node Graph.empty 2 (some 4)) 2 2 (some 1)).2 = true ∧
    (DAG.add_edge (SortableDigraph.add_node Graph.empty 2 (some 4)) 2 2 (some 1)).1 =
      SortableDigraph.add_node (SortableDigraph.add_node Graph.empty 2 (some 4)) 2 none ∧
    (2 ∈ SortableDigraph.get_nodes (SortableDigraph.add_node Graph.empty 2 (some 4)) →
      (DAG.add_edge (SortableDigraph.add_node Graph.empty 2 (some 4)) 2 2 (some 1)).1 =
        SortableDigraph.add_node Graph.empty 2 (some 4)) :=
  C5_self_loop_rejected (SortableDigraph.add_node Graph.empty 2 (some 4)) 2 (some 1)
    (by decide) ((DAG.detect_cycle_eq_false_iff _).mp (by decide))

/-- Counterexample for C5 as stated: adding the self-loop `7 → 7` to a state
that does not contain node `7` raises, but does not leave the graph unchanged
— node `7` is created and persists. -/
theorem C5_counterexample :
    (DAG.add_edge (SortableDigraph.add_node Graph.empty 5 none) 7 7 (some 1)).2 = true ∧
    (DAG.add_edge (SortableDigraph.add_node Graph.empty 5 none) 7 7 (some 1)).1 ≠
      SortableDigraph.add_node Graph.empty 5 none := by
  decide

end Claims

section Claims2

/-- Claim C6 (corrected): on every graph and start node, `dfs` and `bfs` each
emit every node exactly once, and the emitted set is the set of nodes
reachable from the start by one or more edges — the start node itself is
emitted only if it lies on a cycle, not by the zero-edge path. -/
theorem C6_traversal_spec (g : Graph) (start : Nat) :
    (TraversableDigraph.dfs g start).Nodup ∧
    (TraversableDigraph.bfs g start).Nodup ∧
    (∀ x, x ∈ TraversableDigraph.dfs g start ↔ Reaches1 g start x) ∧
    (∀ x, x ∈ TraversableDigraph.bfs g start ↔ Reaches1 g start x) :=
  ⟨(dfs_spec g start).1, (bfs_spec g start).1, (dfs_spec g start).2, (bfs_spec g start).2⟩

/-- Counterexample for C6 as stated: in the one-node graph with no edges, the
start node `0` exists and is reachable from itself by the zero-edge path, yet
both traversals emit nothing. -/
theorem C6_counterexample :
    0 ∈ SortableDigraph.get_nodes (SortableDigraph.add_node Graph.empty 0 none) ∧
    Reaches (SortableDigraph.add_node Graph.empty 0 none) 0 0 ∧
    TraversableDigraph.dfs (SortableDigraph.add_node Graph.empty 0 none) 0 = [] ∧
    TraversableDigraph.bfs (SortableDigraph.add_node Graph.empty 0 none) 0 = [] :=
  ⟨by decide, Relation.ReflTransGen.refl, by decide, by decide⟩

/-- Claim C7 (corrected): re-adding an edge `u → v` overwrites the stored
weight in place, but it also appends a second copy of `v` to `u`'s successor
list: the base `add_edge` always appends, so parallel entries do arise. -/
theorem C7_readd_edge (g : Graph) (u v : Nat) (w : Option Int) :
    SortableDigraph.successors (SortableDigraph.add_edge g u v w) u =
      SortableDigraph.successors g u ++ [v] ∧
    SortableDigraph.get_edge_weight (SortableDigraph.add_edge g u v w) u v = w := by
  constructor
  · rw [successors_add_edge, if_pos rfl]
  · exact get_edge_weight_add_edge g u v w

/-- Counterexample for C7 as stated: adding `0 → 1` twice yields the successor
list `[1, 1]` — a parallel entry — although the weight is overwritten. -/
theorem C7_counterexample :
    SortableDigraph.successors (SortableDigraph.add_edge
      (SortableDigraph.add_edge Graph.empty 0 1 none) 0 1 (some 2)) 0 = [1, 1] ∧
    SortableDigraph.get_edge_weight (SortableDigraph.add_edge
      (SortableDigraph.add_edge Graph.empty 0 1 none) 0 1 (some 2)) 0 1 = some 2 := by
  decide

/-- Claim C8 (confirmed): on a well-formed state, reads of an absent node `n`
and of a pair `(u, v)` with no stored edge all return empty or absent results
rather than raising: `get_node_value` and `get_edge_weight` return `none`,
`successors` and `predecessors` return `[]`, and `dfs` / `bfs` from the
unknown start emit nothing. -/
theorem C8_soft_reads (g : Graph) (n u v : Nat) (hwf : WF g)
    (hn : n ∉ SortableDigraph.get_nodes g) (huv : ¬ Adj g u v) :
    SortableDigraph.get_node_value g n = none ∧
    SortableDigraph.get_edge_weight g u v = none ∧
    SortableDigraph.successors g n = [] ∧
    SortableDigraph.predecessors g n = [] ∧
    TraversableDigraph.dfs g n = [] ∧
    TraversableDigraph.bfs g n = [] := by
  have hadjn : alookup g.adj n = none := (alookup_eq_none_iff _ _).mpr hn
  have hndn : alookup g.node_data n = none := by
    rw [alookup_eq_none_iff, hwf.2.1]
    exact hn
  have hval : SortableDigraph.get_node_value g n = none := by
    unfold SortableDigraph.get_node_value
    rw [hndn]
  have hewn : alookup g.edge_weights (u, v) = none := by
    cases hw : alookup g.edge_weights (u, v) with
    | none => rfl
    | some w' => exact absurd (hwf.2.2.2.2 ((u, v), w') (alookup_mem hw)) huv
  have hwt : SortableDigraph.get_edge_weight g u v = none := by
    unfold SortableDigraph.get_edge_weight
    rw [hewn]
  have hsucc : SortableDigraph.successors g n = [] := by
    unfold SortableDigraph.successors
    rw [hadjn]
    rfl
  have hpred : SortableDigraph.predecessors g n = [] := by
    unfold SortableDigraph.predecessors
    have hfil : g.adj.filter (fun p => p.2.contains n) = [] := by
      rw [List.filter_eq_nil_iff]
      intro p hp hcon
      have hmem : n ∈ p.2 := by simpa using hcon
      exact hn (hwf.2.2.2.1 p hp n hmem)
    rw [hfil]
    rfl
  have hdfs : TraversableDigraph.dfs g n = [] := by
    rw [List.eq_nil_iff_forall_not_mem]
    intro x hx
    obtain ⟨y, hy, -⟩ := DAG.transGen_head_decomp (((dfs_spec g n).2 x).mp hx)
    have hy2 : y ∈ SortableDigraph.successors g n := hy
    rw [hsucc] at hy2
    cases hy2
  have hbfs : TraversableDigraph.bfs g n = [] := by
    rw [List.eq_nil_iff_forall_not_mem]
    intro x hx
    obtain ⟨y, hy, -⟩ := DAG.transGen_head_decomp (((bfs_spec g n).2 x).mp hx)
    have hy2 : y ∈ SortableDigraph.successors g n := hy
    rw [hsucc] at hy2
    cases hy2
  exact ⟨hval, hwt, hsucc, hpred, hdfs, hbfs⟩

/-- Witness for C8 on the one-edge state `1 → 2`, absent node `9` and absent
edge `(3, 4)`. -/
theorem C8_soft_reads_witness :
    SortableDigraph.get_node_value (SortableDigraph.add_edge Graph.empty 1 2 none) 9 = none ∧
    SortableDigraph.get_edge_weight (SortableDigraph.add_edge Graph.empty 1 2 none) 3 4 = none ∧
    SortableDigraph.successors (SortableDigraph.add_edge Graph.empty 1 2 none) 9 = [] ∧
    SortableDigraph.predecessors (SortableDigraph.add_edge Graph.empty 1 2 none) 9 = [] ∧
    TraversableDigraph.dfs (SortableDigraph.add_edge Graph.empty 1 2 none) 9 = [] ∧
    TraversableDigraph.bfs (SortableDigraph.add_edge Graph.empty 1 2 none) 9 = [] :=
  C8_soft_reads (SortableDigraph.add_edge Graph.empty 1 2 none) 9 3 4
    (by decide) (by decide) (by decide)

/-- Claim C9 (confirmed): re-adding an existing node identifier is a no-op
that never overwrites its value: after `add_node n v1; add_node n v2` the
stored value is `v1` whenever `n` was fresh, and when `n` already existed
both calls are no-ops and the stored value is unchanged. -/
theorem C9_idempotent_add_node (g : Graph) (n : Nat) (v1 v2 : Option Int) (hwf : WF g) :
    (n ∉ SortableDigraph.get_nodes g →
      SortableDigraph.get_node_value
        (SortableDigraph.add_node (SortableDigraph.add_node g n v1) n v2) n = v1) ∧
    (n ∈ SortableDigraph.get_nodes g →
      SortableDigraph.add_node (SortableDigraph.add_node g n v1) n v2 = g) := by
  constructor
  · intro hn
    have hadj : alookup g.adj n = none := (alookup_eq_none_iff _ _).mpr hn
    have hg1 : SortableDigraph.add_node g n v1 =
        { g with adj := g.adj ++ [(n, [])], node_data := g.node_data ++ [(n, v1)] } := by
      unfold SortableDigraph.add_node
      rw [hadj]
    have hlook1 : alookup (SortableDigraph.add_node g n v1).adj n = some [] := by
      rw [hg1]
      show alookup (g.adj ++ [(n, [])]) n = some []
      rw [alookup_append, hadj]
      show alookup [(n, ([] : List Nat))] n = some []
      show (if n = n then some ([] : List Nat) else alookup [] n) = some []
      rw [if_pos rfl]
    have hg2 : SortableDigraph.add_node (SortableDigraph.add_node g n v1) n v2 =
        SortableDigraph.add_node g n v1 :=
      add_node_mem_noop _ n v2 (mem_akeys_of_alookup _ _ _ hlook1)
    have hnd : alookup g.node_data n = none := by
      rw [alookup_eq_none_iff, hwf.2.1]
      exact hn
    have hl : alookup [(n, v1)] n = some v1 := by
      show (if n = n then some v1 else alookup [] n) = some v1
      rw [if_pos rfl]
    rw [hg2, hg1]
    unfold SortableDigraph.get_node_value
    show (match alookup (g.node_data ++ [(n, v1)]) n with
          | some d => d
          | none => none) = v1
    rw [alookup_append, hnd]
    show (match alookup [(n, v1)] n with
          | some d => d
          | none => none) = v1
    rw [hl]
  · intro hn
    have hg1 : SortableDigraph.add_node g n v1 = g := add_node_mem_noop g n v1 hn
    rw [hg1]
    exact add_node_mem_noop g n v2 hn

/-- Witness for C9 on the empty graph with `n = 4`, `v1 = 7`, `v2 = 8`. -/
theorem C9_idempotent_add_node_witness :
    (4 ∉ SortableDigraph.get_nodes Graph.empty →
      SortableDigraph.get_node_value
        (SortableDigraph.add_node (SortableDigraph.add_node Graph.empty 4 (some 7)) 4 (some 8))
        4 = some 7) ∧
    (4 ∈ SortableDigraph.get_nodes Graph.empty →
      SortableDigraph.add_node (SortableDigraph.add_node Graph.empty 4 (some 7)) 4 (some 8) =
        Graph.empty) :=
  C9_idempotent_add_node Graph.empty 4 (some 7) (some 8) (by decide)

/-- Claim C10 (confirmed): the layers default differently — a successful
`DAG.add_edge u v` with the default weight stores `1`, while the base-class
`add_edge u v` with the default weight stores `None`, and `get_edge_weight`
reads them back accordingly. -/
theorem C10_default_weights (g : Graph) (u v : Nat)
    (hok : (DAG.add_edge g u v (some 1)).2 = false) :
    SortableDigraph.get_edge_weight (DAG.add_edge g u v (some 1)).1 u v = some 1 ∧
    SortableDigraph.get_edge_weight (SortableDigraph.add_edge g u v none) u v = none := by
  constructor
  · have hdet : ¬ DAG.detect_cycle (SortableDigraph.add_edge g u v (some 1)) = true := by
      intro hd
      have h2 := (dag_add_edge_raised_iff g u v (some 1)).mpr hd
      rw [hok] at h2
      cases h2
    rw [dag_add_edge_fst_ok g u v (some 1) hdet]
    exact get_edge_weight_add_edge g u v (some 1)
  · exact get_edge_weight_add_edge g u v none

/-- Witness for C10 on the empty graph with the edge `0 → 1`. -/
theorem C10_default_weights_witness :
    SortableDigraph.get_edge_weight (DAG.add_edge Graph.empty 0 1 (some 1)).1 0 1 = some 1 ∧
    SortableDigraph.get_edge_weight (SortableDigraph.add_edge Graph.empty 0 1 none) 0 1 = none :=
  C10_default_weights Graph.empty 0 1 (by decide)

end Claims2
